import Mathlib

/-! Verification development for the tet-offer-map repository: the partition cache,
the NDJSON partition payload parser, the viewport loader state machine, the
bounding-box intersection test, the convex-hull outline builder and the DBSCAN
cluster engine, shallowly embedded from the frontend sources. -/

namespace TetOfferMap

/-- Record shape of one dataset item as consumed by the frontend. Only the fields
inspected by the core (id, address, geometry and offers presence, the _regionName
tag written by the merge) are modelled; the remaining offer payload is opaque.
The geometry and offers fields are none when the parsed JSON lacks them (JS
falsy/undefined). -/
structure TETRecord where
  id : String
  address : String
  geometry : Option String
  offers : Option (List String)
  regionName : String
deriving DecidableEq

/-- Validation DataUtils.isValidTETProperty: property and property.id and
property.address and property.geometry and property.offers must all be truthy and
offers an array. The outer Option is none when the parsed JSON line is not a
record-shaped object at all (for example a bare null), which also fails the
property truthiness check. -/
def isValidTETProperty : Option TETRecord → Bool
  | none => false
  | some p => p.id != "" && p.address != "" && p.geometry.isSome && p.offers.isSome

/-- Host String.prototype.split on the newline separator, written at the
character level (splitting an empty text yields one empty piece, exactly as in
JS). -/
def splitOnNewline : List Char → List (List Char)
  | [] => [[]]
  | c :: rest =>
    let r := splitOnNewline rest
    if c = '\n' then [] :: r
    else (c :: r.headI) :: r.tail

/-- Truthiness of line.trim(): a line survives the filter iff it still has a
character after trimming, that is iff it contains a non-whitespace character. -/
def lineNonblank (line : String) : Bool :=
  line.data.any (fun c => !c.isWhitespace)

/-- Nonblank lines of a newline-delimited payload: the split on the newline
character from DataUtils.parseNDJSON, filtered by line.trim() truthiness. -/
def nonblankLines (text : String) : List String :=
  ((splitOnNewline text.data).map (fun cs => String.mk cs)).filter lineNonblank

/-- Map a throwing per-element function over a list: the first element on which f
throws (returns none) aborts the whole traversal, exactly as an exception inside
Array.prototype.map propagates out of the map call. -/
def mapOrThrow (f : α → Option β) : List α → Option (List β)
  | [] => some []
  | a :: l => (f a).bind (fun b => (mapOrThrow f l).map (fun bs => b :: bs))

/-- DataUtils.parseNDJSON: split on newlines, drop blank lines, JSON.parse each
line. The host JSON.parse is the parseLine argument; a line on which it throws is
modelled by parseLine returning none, and the exception escaping the whole map
call is modelled by mapOrThrow returning none. -/
def parseNDJSON (parseLine : String → Option α) (text : String) : Option (List α) :=
  mapOrThrow parseLine (nonblankLines text)

/-- The tolerant per-line parse described by the specification, written from the
words of the spec for comparison: the core parses each line independently and
skips (drops) malformed lines, never aborting the rest of the payload. -/
def parseNDJSONTolerant (parseLine : String → Option α) (text : String) : List α :=
  (nonblankLines text).filterMap parseLine

/-- Region payload handling in loadRegionsInView:
DataUtils.parseNDJSON(resp.data).filter(DataUtils.isValidTETProperty). -/
def parseRegionPayload (parseLine : String → Option (Option TETRecord)) (text : String) :
    Option (List (Option TETRecord)) :=
  (parseNDJSON parseLine text).map (fun rs => rs.filter isValidTETProperty)

theorem mapOrThrow_eq_none_iff (f : α → Option β) (l : List α) :
    mapOrThrow f l = none ↔ ∃ a ∈ l, f a = none := by
  induction l with
  | nil => simp [mapOrThrow]
  | cons a l ih =>
    cases hfa : f a with
    | none => simp [mapOrThrow, hfa]
    | some b =>
      cases hrest : mapOrThrow f l with
      | none =>
        obtain ⟨x, hx, hfx⟩ := ih.mp hrest
        simp only [mapOrThrow, hfa, hrest, Option.bind_some, Option.map_none]
        constructor
        · intro _; exact ⟨x, List.mem_cons_of_mem a hx, hfx⟩
        · intro _; rfl
      | some bs =>
        simp only [mapOrThrow, hfa, Option.bind_some, hrest, Option.map_some]
        constructor
        · intro h; exact absurd h (by simp)
        · rintro ⟨x, hx, hfx⟩
          cases hx with
          | head => rw [hfa] at hfx; exact absurd hfx (by simp)
          | tail _ hx => rw [ih.mpr ⟨x, hx, hfx⟩] at hrest; exact absurd hrest (by simp)

theorem mapOrThrow_eq_filterMap (f : α → Option β) (l : List α)
    (h : ∀ a ∈ l, (f a).isSome) : mapOrThrow f l = some (l.filterMap f) := by
  induction l with
  | nil => simp [mapOrThrow]
  | cons a l ih =>
    obtain ⟨b, hb⟩ := Option.isSome_iff_exists.mp (h a (List.mem_cons_self a l))
    rw [mapOrThrow, hb, ih (fun x hx => h x (List.mem_cons_of_mem a hx))]
    simp [List.filterMap_cons, hb]

/-- Cache entry payload as written by StorageManager.saveRegionDataset:
an updatedAt freshness token next to the cached records. -/
structure CacheEntry where
  updatedAt : String
  records : List (Option TETRecord)
deriving DecidableEq

/-- Contents of the localforage regionStore, a host key/value collaborator,
modelled as an association list of key and stored payload. -/
abbrev Store := List (String × CacheEntry)

/-- Host store getItem. -/
def storeGet (st : Store) (k : String) : Option CacheEntry :=
  (st.find? (fun p => p.1 == k)).map Prod.snd

/-- Host store setItem: replace the value under an existing key, or append. -/
def storeSet : Store → String → CacheEntry → Store
  | [], k, v => [(k, v)]
  | p :: rest, k, v => if p.1 = k then (k, v) :: rest else p :: storeSet rest k v

/-- Host store removeItem. -/
def storeRemove (st : Store) (k : String) : Store :=
  st.filter (fun p => p.1 != k)

/-- Region cache key: the region_ prefix prepended to the partition name. -/
def regionKey (name : String) : String :=
  "region_" ++ name

/-- Payload built by saveRegionDataset: updatedAt falls back to the current time
when the supplied token is falsy (the now argument stands for the host clock value
new Date().toISOString()). -/
def savedEntry (now : String) (records : List (Option TETRecord)) (updatedAt : String) :
    CacheEntry :=
  { updatedAt := if updatedAt = "" then now else updatedAt, records := records }

/-- StorageManager.saveRegionDataset. -/
def saveRegionDataset (now name : String) (records : List (Option TETRecord))
    (updatedAt : String) (st : Store) : Store :=
  storeSet st (regionKey name) (savedEntry now records updatedAt)

/-- StorageManager.getOrInvalidateRegion: returns the records of a cached entry
when no reference timestamp is supplied (falsy expectedUpdatedAt, modelled as the
empty string) or when the stored updatedAt matches exactly; on a mismatch the
stale entry is removed and none is returned. The second component is the store
contents after the call. -/
def getOrInvalidateRegion (name expectedUpdatedAt : String) (st : Store) :
    Option (List (Option TETRecord)) × Store :=
  match storeGet st (regionKey name) with
  | none => (none, st)
  | some existing =>
    if expectedUpdatedAt = "" then (some existing.records, st)
    else if existing.updatedAt = expectedUpdatedAt then (some existing.records, st)
    else (none, storeRemove st (regionKey name))

/-- One saveRegionDataset call in a trace of cache writes. -/
structure SaveOp where
  name : String
  records : List (Option TETRecord)
  updatedAt : String

/-- Replay of a trace of saveRegionDataset calls against a store. -/
def applySaves (now : String) (ops : List SaveOp) (st : Store) : Store :=
  ops.foldl (fun s op => saveRegionDataset now op.name op.records op.updatedAt s) st

/-- The last save of a trace that targets the partition name n, if any. -/
def lastSaveTo (n : String) : List SaveOp → Option SaveOp
  | [] => none
  | op :: rest =>
    match lastSaveTo n rest with
    | some r => some r
    | none => if op.name = n then some op else none

theorem storeGet_storeSet (st : Store) (k kq : String) (v : CacheEntry) :
    storeGet (storeSet st k v) kq = if kq = k then some v else storeGet st kq := by
  induction st with
  | nil =>
    by_cases h : kq = k
    · simp [storeGet, storeSet, List.find?, h]
    · have hk : (k == kq) = false := by
        simp only [beq_eq_false_iff_ne]; exact fun hh => h hh.symm
      simp [storeGet, storeSet, List.find?, h, hk]
  | cons p rest ih =>
    by_cases hpk : p.1 = k
    · by_cases h : kq = k
      · simp [storeSet, storeGet, hpk, List.find?, h]
      · have hpq : (p.1 == kq) = false := by
          simp only [beq_eq_false_iff_ne]; rw [hpk]; exact fun hh => h hh.symm
        simp [storeSet, storeGet, hpk, List.find?, h, hpq,
          show (k == kq) = false by simp only [beq_eq_false_iff_ne]; exact fun hh => h hh.symm]
    · by_cases hq : p.1 = kq
      · simp [storeSet, storeGet, hpk, List.find?, hq, if_neg (fun hh : kq = k => hpk (hq.trans hh))]
      · have hpq : (p.1 == kq) = false := by simp only [beq_eq_false_iff_ne]; exact hq
        simp only [storeSet, if_neg hpk, storeGet, List.find?, hpq]
        exact ih

theorem regionKey_inj {a b : String} (h : regionKey a = regionKey b) : a = b := by
  have hd : (regionKey a).data = (regionKey b).data := by rw [h]
  simp only [regionKey, String.data_append] at hd
  exact String.ext (List.append_cancel_left hd)

theorem lastSaveTo_mem {n : String} {ops : List SaveOp} {op : SaveOp}
    (h : lastSaveTo n ops = some op) : op ∈ ops := by
  induction ops with
  | nil => simp [lastSaveTo] at h
  | cons o rest ih =>
    rw [lastSaveTo] at h
    cases hr : lastSaveTo n rest with
    | some r =>
      simp only [hr] at h
      cases h
      exact List.mem_cons_of_mem o (ih hr)
    | none =>
      simp only [hr] at h
      by_cases ho : o.name = n
      · rw [if_pos ho] at h; cases h; exact List.mem_cons_self _ _
      · rw [if_neg ho] at h; cases h

theorem storeGet_applySaves (now n : String) (ops : List SaveOp) (st : Store) :
    storeGet (applySaves now ops st) (regionKey n) =
      match lastSaveTo n ops with
      | some op => some (savedEntry now op.records op.updatedAt)
      | none => storeGet st (regionKey n) := by
  induction ops generalizing st with
  | nil => simp [applySaves, lastSaveTo]
  | cons op rest ih =>
    have hstep : applySaves now (op :: rest) st =
        applySaves now rest (saveRegionDataset now op.name op.records op.updatedAt st) := rfl
    rw [hstep, ih]
    cases hrest : lastSaveTo n rest with
    | some r => simp [lastSaveTo, hrest]
    | none =>
      simp only [lastSaveTo, hrest]
      by_cases hname : op.name = n
      · rw [hname]
        simp [saveRegionDataset, storeGet_storeSet, hname]
      · have hk : ¬ regionKey n = regionKey op.name := fun hh => hname (regionKey_inj hh).symm
        simp [saveRegionDataset, storeGet_storeSet, hk, if_neg hname]

/-- Claim C1: for every partition name n and (non-falsy) timestamp ts, a cache
lookup getOrInvalidateRegion(n, ts) after replaying any trace of
saveRegionDataset calls against an empty store returns a non-null records array
iff the last save targeting n carried exactly the timestamp ts (a prior save with
ts occurred and no later save replaced it with a different timestamp); and on a
timestamp mismatch against a cached entry the stale entry is deleted from the
store and null is returned. -/
theorem cache_freshness_law (now n ts : String) (hts : ts ≠ "") (ops : List SaveOp)
    (hops : ∀ op ∈ ops, op.updatedAt ≠ "") :
    ((getOrInvalidateRegion n ts (applySaves now ops [])).1.isSome ↔
      ∃ op, lastSaveTo n ops = some op ∧ op.updatedAt = ts) ∧
    (∀ (st : Store) (e : CacheEntry), storeGet st (regionKey n) = some e →
      e.updatedAt ≠ ts →
      getOrInvalidateRegion n ts st = (none, storeRemove st (regionKey n))) := by
  constructor
  · have hlook := storeGet_applySaves now n ops []
    cases hlast : lastSaveTo n ops with
    | none =>
      rw [hlast] at hlook
      simp only [getOrInvalidateRegion, hlook]
      simp only [storeGet, List.find?, Option.map_none]
      constructor
      · intro h; exact absurd h (by simp)
      · rintro ⟨op, hop, _⟩; exact absurd hop (by simp)
    | some op =>
      simp only [hlast] at hlook
      have hop_ne : op.updatedAt ≠ "" := hops op (lastSaveTo_mem hlast)
      simp only [getOrInvalidateRegion, hlook, savedEntry, if_neg hop_ne]
      by_cases hmatch : op.updatedAt = ts
      · simp [if_neg hts, hmatch]
      · simp only [if_neg hts, if_neg hmatch]
        constructor
        · intro h; exact absurd h (by simp)
        · rintro ⟨op2, hop2, hts2⟩
          cases hop2
          exact absurd hts2 hmatch
  · intro st e hget hne
    simp [getOrInvalidateRegion, hget, if_neg hts, if_neg hne]

/-- Witness for cache_freshness_law at a concrete one-save trace. -/
theorem cache_freshness_law_witness :
    (("t1" : String) ≠ "" ∧ (∀ op ∈ [SaveOp.mk "a" [] "t1"], op.updatedAt ≠ "")) ∧
    (((getOrInvalidateRegion "a" "t1" (applySaves "now0" [SaveOp.mk "a" [] "t1"] [])).1.isSome ↔
        ∃ op, lastSaveTo "a" [SaveOp.mk "a" [] "t1"] = some op ∧ op.updatedAt = "t1") ∧
      (∀ (st : Store) (e : CacheEntry), storeGet st (regionKey "a") = some e →
        e.updatedAt ≠ "t1" →
        getOrInvalidateRegion "a" "t1" st = (none, storeRemove st (regionKey "a")))) := by
  refine ⟨⟨by decide, ?_⟩, cache_freshness_law "now0" "a" "t1" (by decide) _ ?_⟩ <;>
    · intro op hop
      simp only [List.mem_singleton] at hop
      rw [hop]
      decide

/-- Claim C8: calling getOrInvalidateRegion with a falsy (null, undefined or
empty, modelled as the empty string) expectedUpdatedAt returns the stored records
of a cached entry regardless of its stored updatedAt, and leaves the store
untouched: no invalidation happens when no reference timestamp is supplied. -/
theorem no_reference_timestamp_accepts (n : String) (st : Store) (e : CacheEntry)
    (h : storeGet st (regionKey n) = some e) :
    getOrInvalidateRegion n "" st = (some e.records, st) := by
  simp [getOrInvalidateRegion, h]

/-- Witness for no_reference_timestamp_accepts on a concrete store whose entry
has a non-matching timestamp. -/
theorem no_reference_timestamp_accepts_witness :
    storeGet [(regionKey "a", CacheEntry.mk "told" [])] (regionKey "a") =
        some (CacheEntry.mk "told" []) ∧
    getOrInvalidateRegion "a" "" [(regionKey "a", CacheEntry.mk "told" [])] =
      (some [], [(regionKey "a", CacheEntry.mk "told" [])]) :=
  ⟨by decide,
    no_reference_timestamp_accepts "a" [(regionKey "a", CacheEntry.mk "told" [])]
      (CacheEntry.mk "told" []) (by decide)⟩

/-- Claim C2 (amended): parseNDJSON handles each nonblank line with the host
JSON.parse; a parsed line that merely fails record-shape validation is dropped by
the subsequent filter without affecting the other lines, but a line on which
JSON.parse throws aborts the parse of the whole partition payload (the caller
catches the exception and the partition load fails as a whole), so a
JSON-malformed line is not skipped. -/
theorem parseNDJSON_line_error_behavior {α : Type} (parseLine : String → Option α)
    (pl : String → Option (Option TETRecord)) (text : String) :
    (parseNDJSON parseLine text = none ↔ ∃ line ∈ nonblankLines text, parseLine line = none) ∧
    ((∀ line ∈ nonblankLines text, (parseLine line).isSome) →
      parseNDJSON parseLine text = some ((nonblankLines text).filterMap parseLine)) ∧
    ((∀ line ∈ nonblankLines text, (pl line).isSome) →
      parseRegionPayload pl text =
        some (((nonblankLines text).filterMap pl).filter isValidTETProperty)) := by
  refine ⟨mapOrThrow_eq_none_iff parseLine (nonblankLines text),
    fun h => mapOrThrow_eq_filterMap parseLine (nonblankLines text) h, fun h => ?_⟩
  simp [parseRegionPayload, parseNDJSON, mapOrThrow_eq_filterMap pl (nonblankLines text) h]

/-- A concrete stand-in for JSON.parse used in the C2 counterexample: every line
parses to a record except the literal line bad, on which it throws (none). -/
def parseLineDemo (s : String) : Option (Option TETRecord) :=
  if s = "bad" then none
  else some (some (TETRecord.mk s s (some s) (some []) ""))

/-- Counterexample to claim C2 as stated: on the payload ok1, bad, ok2 the middle
line fails to parse and the whole partition parse aborts (returns none), instead
of skipping the malformed line and keeping the two parseable lines as the
spec-modelled tolerant parser does. -/
theorem parseNDJSON_malformed_line_aborts_cex :
    parseNDJSON parseLineDemo "ok1\nbad\nok2" = none ∧
    parseNDJSONTolerant parseLineDemo "ok1\nbad\nok2" =
      [some (TETRecord.mk "ok1" "ok1" (some "ok1") (some []) ""),
        some (TETRecord.mk "ok2" "ok2" (some "ok2") (some []) "")] ∧
    parseNDJSON parseLineDemo "ok1\nbad\nok2" ≠
      some (parseNDJSONTolerant parseLineDemo "ok1\nbad\nok2") := by
  refine ⟨?_, ?_, ?_⟩ <;> decide

/-- Witness for parseNDJSON_line_error_behavior on a payload whose lines all
parse. -/
theorem parseNDJSON_line_error_behavior_witness :
    (∀ line ∈ nonblankLines "ok1\nok2", (parseLineDemo line).isSome) ∧
    parseNDJSON parseLineDemo "ok1\nok2" =
      some ((nonblankLines "ok1\nok2").filterMap parseLineDemo) ∧
    parseRegionPayload parseLineDemo "ok1\nok2" =
      some (((nonblankLines "ok1\nok2").filterMap parseLineDemo).filter isValidTETProperty) :=
  ⟨by decide,
    (parseNDJSON_line_error_behavior parseLineDemo parseLineDemo "ok1\nok2").2.1 (by decide),
    (parseNDJSON_line_error_behavior parseLineDemo parseLineDemo "ok1\nok2").2.2 (by decide)⟩

/-- Partition pointer entry as used by loadRegionsInView and the viewport
handler: name, optional well-formed bbox (minX, minY, maxX, maxY) and freshness
token. An entry whose bbox is missing or not a 4-element array is modelled with
bbox none. -/
structure RegionPointer where
  name : String
  bbox : Option (ℚ × ℚ × ℚ × ℚ)
  updatedAt : String
deriving DecidableEq

/-- Viewport bounds handed to the loaders on every map move. -/
structure Viewport where
  west : ℚ
  south : ℚ
  east : ℚ
  north : ℚ
deriving DecidableEq

/-- Intersection test from loadRegionsInView: entries without a well-formed bbox
never intersect; otherwise the non-strict axis-aligned overlap test
not (maxX < west or minX > east or maxY < south or minY > north). -/
def pointerIntersects (r : RegionPointer) (v : Viewport) : Bool :=
  match r.bbox with
  | none => false
  | some (minX, minY, maxX, maxY) =>
    decide (¬ (maxX < v.west ∨ minX > v.east ∨ maxY < v.south ∨ minY > v.north))

/-- Claim C6: the intersection test reports overlap unless one box lies entirely
outside the other on the x axis or on the y axis, and boxes that only touch at an
edge or a corner (a shared boundary coordinate) are still reported as
intersecting, the comparison being non-strict. -/
theorem bbox_intersect_nonstrict (nm ts : String) (minX minY maxX maxY : ℚ) (v : Viewport) :
    (pointerIntersects (RegionPointer.mk nm (some (minX, minY, maxX, maxY)) ts) v = true ↔
      ¬ ((maxX < v.west ∨ v.east < minX) ∨ (maxY < v.south ∨ v.north < minY))) ∧
    (minX ≤ maxX → minY ≤ maxY → v.west ≤ v.east → v.south ≤ v.north →
      maxX = v.west → maxY = v.south →
      pointerIntersects (RegionPointer.mk nm (some (minX, minY, maxX, maxY)) ts) v = true) := by
  constructor
  · simp only [pointerIntersects, decide_eq_true_eq]
    constructor
    · intro h hcon
      exact h (by
        rcases hcon with (h1 | h1) | (h1 | h1)
        · exact Or.inl h1
        · exact Or.inr (Or.inl h1)
        · exact Or.inr (Or.inr (Or.inl h1))
        · exact Or.inr (Or.inr (Or.inr h1)))
    · intro h hcon
      exact h (by
        rcases hcon with h1 | h1 | h1 | h1
        · exact Or.inl (Or.inl h1)
        · exact Or.inl (Or.inr h1)
        · exact Or.inr (Or.inl h1)
        · exact Or.inr (Or.inr h1))
  · intro hx hy hwe hsn hxw hys
    simp only [pointerIntersects, decide_eq_true_eq]
    rintro (h1 | h1 | h1 | h1)
    · rw [hxw] at h1; exact lt_irrefl _ h1
    · exact absurd (le_trans hx (le_trans (le_of_eq hxw) hwe)) (not_le.mpr h1)
    · rw [hys] at h1; exact lt_irrefl _ h1
    · exact absurd (le_trans hy (le_trans (le_of_eq hys) hsn)) (not_le.mpr h1)

/-- Witness for bbox_intersect_nonstrict at a concrete corner-touching pair. -/
theorem bbox_intersect_nonstrict_witness :
    ((0 : ℚ) ≤ 1 ∧ (0 : ℚ) ≤ 1 ∧ (1 : ℚ) ≤ 2 ∧ (1 : ℚ) ≤ 2) ∧
    pointerIntersects (RegionPointer.mk "r" (some (0, 0, 1, 1)) "")
      (Viewport.mk 1 1 2 2) = true :=
  ⟨by norm_num,
    (bbox_intersect_nonstrict "r" "" 0 0 1 1 (Viewport.mk 1 1 2 2)).2 (by norm_num)
      (by norm_num) (by norm_num) (by norm_num) rfl rfl⟩

/-- User-uploaded dataset feature, reduced to the fields the eviction and clear
paths inspect. -/
structure UserFeature where
  datasetId : String
  userDatasetName : String
deriving DecidableEq

/-- The useData hook state touched by the viewport handler: the WorkingSet of
region records (tetData) and user features (userData), the loaded-name sets (JS
Sets, modelled as duplicate-free lists in insertion order), and the pending
eviction timer maps (modelled by their key lists). -/
structure ViewState where
  tetData : List TETRecord
  userData : List UserFeature
  loadedRegionNames : List String
  loadedUserDatasetNames : List String
  regionTimers : List String
  userTimers : List String
deriving DecidableEq

/-- scheduleRegionEviction: a falsy name or an already pending timer makes the
call a no-op, otherwise a timer for the region is started and recorded. -/
def scheduleRegionEviction (regionName : String) (s : ViewState) : ViewState :=
  if regionName = "" ∨ regionName ∈ s.regionTimers then s
  else { s with regionTimers := s.regionTimers ++ [regionName] }

/-- cancelRegionEviction: clear and forget the pending timer, if any. -/
def cancelRegionEviction (regionName : String) (s : ViewState) : ViewState :=
  { s with regionTimers := s.regionTimers.erase regionName }

/-- Body of the region eviction timeout: drop the region records from tetData,
unmark the region as loaded and forget the timer handle. -/
def fireRegionEviction (regionName : String) (s : ViewState) : ViewState :=
  { s with
    tetData := s.tetData.filter (fun r => r.regionName != regionName),
    loadedRegionNames := s.loadedRegionNames.erase regionName,
    regionTimers := s.regionTimers.erase regionName }

/-- Strip the user: tag as done by the user dataset eviction callback. -/
def stripUserTag (name : String) : String :=
  if name.startsWith "user:" then name.drop 5 else name

/-- scheduleUserDatasetEviction, same shape as the region variant. -/
def scheduleUserDatasetEviction (pointerName : String) (s : ViewState) : ViewState :=
  if pointerName = "" ∨ pointerName ∈ s.userTimers then s
  else { s with userTimers := s.userTimers ++ [pointerName] }

/-- cancelUserDatasetEviction. -/
def cancelUserDatasetEviction (pointerName : String) (s : ViewState) : ViewState :=
  { s with userTimers := s.userTimers.erase pointerName }

/-- Body of the user dataset eviction timeout. -/
def fireUserDatasetEviction (pointerName : String) (s : ViewState) : ViewState :=
  { s with
    userData := s.userData.filter (fun f => f.userDatasetName != stripUserTag pointerName),
    loadedUserDatasetNames := s.loadedUserDatasetNames.erase pointerName,
    userTimers := s.userTimers.erase pointerName }

/-- Viewport bounds plus zoom delivered by the map on every move or zoom. -/
structure BoundsInfo where
  west : ℚ
  south : ℚ
  east : ℚ
  north : ℚ
  zoom : ℚ
deriving DecidableEq

/-- The bbox part of a BoundsInfo. -/
def viewportOf (b : BoundsInfo) : Viewport :=
  Viewport.mk b.west b.south b.east b.north

/-- Synchronous state effect of handleViewportChange. At zoom at least 15 the
visibility tracking cancels the eviction timer of every loaded partition still
intersecting the viewport and schedules one for every loaded partition that left
it (the asynchronous region and user dataset loads it also kicks off are
modelled separately by mergeRegionRecords). Below zoom 15 it clears the whole
WorkingSet, resets the loaded-name sets and cancels every pending timer. -/
def handleViewportChange (regionPointers userDatasetPointers : List RegionPointer)
    (b : BoundsInfo) (s : ViewState) : ViewState :=
  if 15 ≤ b.zoom then
    let s1 :=
      if regionPointers ≠ [] ∧ s.loadedRegionNames ≠ [] then
        s.loadedRegionNames.foldl (fun st name =>
          match regionPointers.find? (fun p => p.name == name) with
          | some ptr =>
            if pointerIntersects ptr (viewportOf b) then cancelRegionEviction name st
            else scheduleRegionEviction name st
          | none => scheduleRegionEviction name st) s
      else s
    if userDatasetPointers ≠ [] ∧ s1.loadedUserDatasetNames ≠ [] then
      s1.loadedUserDatasetNames.foldl (fun st name =>
        match userDatasetPointers.find? (fun p => p.name == name) with
        | some ptr =>
          if pointerIntersects ptr (viewportOf b) then cancelUserDatasetEviction name st
          else scheduleUserDatasetEviction name st
        | none => scheduleUserDatasetEviction name st) s1
    else s1
  else
    let s2 :=
      if s.tetData ≠ [] ∨ s.loadedRegionNames ≠ [] then
        { s with tetData := [], loadedRegionNames := [] }
      else s
    let s3 :=
      if s2.userData ≠ [] ∨ s2.loadedUserDatasetNames ≠ [] then
        { s2 with userData := [], loadedUserDatasetNames := [] }
      else s2
    { s3 with regionTimers := [], userTimers := [] }

/-- Claim C5: on a viewport event whose zoom is below the load threshold 15 the
handler empties the whole WorkingSet, both region records and user dataset
records, and resets every partition load state to NotLoaded: both loaded-name
sets become empty. -/
theorem lowZoom_clears_workingSet (regionPointers userDatasetPointers : List RegionPointer)
    (b : BoundsInfo) (s : ViewState) (h : b.zoom < 15) :
    (handleViewportChange regionPointers userDatasetPointers b s).tetData = [] ∧
    (handleViewportChange regionPointers userDatasetPointers b s).userData = [] ∧
    (handleViewportChange regionPointers userDatasetPointers b s).loadedRegionNames = [] ∧
    (handleViewportChange regionPointers userDatasetPointers b s).loadedUserDatasetNames = [] := by
  have hz : ¬ (15 ≤ b.zoom) := not_le.mpr h
  simp only [handleViewportChange, if_neg hz]
  split_ifs <;> simp_all

/-- Witness for lowZoom_clears_workingSet at a concrete nonempty state. -/
theorem lowZoom_clears_workingSet_witness :
    ((10 : ℚ) < 15) ∧
    ((handleViewportChange [] [] (BoundsInfo.mk 0 0 1 1 10)
        (ViewState.mk [TETRecord.mk "x" "a" none none "r"] [] ["r"] [] [] [])).tetData = [] ∧
      (handleViewportChange [] [] (BoundsInfo.mk 0 0 1 1 10)
        (ViewState.mk [TETRecord.mk "x" "a" none none "r"] [] ["r"] [] [] [])).userData = [] ∧
      (handleViewportChange [] [] (BoundsInfo.mk 0 0 1 1 10)
        (ViewState.mk [TETRecord.mk "x" "a" none none "r"] [] ["r"] [] [] [])).loadedRegionNames = [] ∧
      (handleViewportChange [] [] (BoundsInfo.mk 0 0 1 1 10)
        (ViewState.mk [TETRecord.mk "x" "a" none none "r"] [] ["r"] [] [] [])).loadedUserDatasetNames = []) :=
  ⟨by norm_num,
    lowZoom_clears_workingSet [] [] (BoundsInfo.mk 0 0 1 1 10)
      (ViewState.mk [TETRecord.mk "x" "a" none none "r"] [] ["r"] [] [] []) (by norm_num)⟩

/-- Claim C7: scheduling eviction for a partition is idempotent: while a timer is
pending a second schedule call is a no-op, so scheduling any number of times
before the timer fires arms exactly one timer, and when the timer fires it
unregisters itself, so the partition records are evicted exactly once. -/
theorem eviction_schedule_idempotent (s : ViewState) (name : String) :
    scheduleRegionEviction name (scheduleRegionEviction name s) =
      scheduleRegionEviction name s ∧
    (name ∈ s.regionTimers → scheduleRegionEviction name s = s) ∧
    (fireRegionEviction name s).regionTimers = s.regionTimers.erase name := by
  refine ⟨?_, ?_, rfl⟩
  · by_cases h : name = "" ∨ name ∈ s.regionTimers
    · simp [scheduleRegionEviction, if_pos h]
    · have hmem : name ∈ s.regionTimers ++ [name] :=
        List.mem_append_right _ (List.mem_singleton.mpr rfl)
      simp [scheduleRegionEviction, if_neg h, hmem]
  · intro hmem
    simp [scheduleRegionEviction, hmem]

/-- Witness for eviction_schedule_idempotent at a state with a pending timer. -/
theorem eviction_schedule_idempotent_witness :
    ("r" : String) ∈ (ViewState.mk [] [] [] [] ["r"] []).regionTimers ∧
    scheduleRegionEviction "r" (ViewState.mk [] [] [] [] ["r"] []) =
      ViewState.mk [] [] [] [] ["r"] [] :=
  ⟨by decide, (eviction_schedule_idempotent (ViewState.mk [] [] [] [] ["r"] []) "r").2.1 (by decide)⟩

/-- JS Map.set keyed by record id: replace the value of an existing key in
place, append a fresh key at the end. -/
def jsMapSet (m : List (String × TETRecord)) (k : String) (v : TETRecord) :
    List (String × TETRecord) :=
  if m.any (fun p => p.1 == k) then m.map (fun p => if p.1 == k then (k, v) else p)
  else m ++ [(k, v)]

/-- Handling of one fetched record in the setTetData merge: a falsy record or a
record with a falsy id is skipped, any other record is tagged with the region
name and inserted into the id-keyed Map. -/
def mergeStep (regionName : String) (m : List (String × TETRecord)) :
    Option TETRecord → List (String × TETRecord)
  | none => m
  | some r => if r.id ≠ "" then jsMapSet m r.id { r with regionName := regionName } else m

/-- Merge of loadRegionsInView setTetData: with no fetched records the previous
WorkingSet is kept unchanged; otherwise a Map is seeded from prev keyed by id,
every truthy record with a truthy id is tagged with the region name and inserted
(last writer wins), and the Map values become the new WorkingSet. -/
def mergeRegionRecords (regionName : String) (records : List (Option TETRecord))
    (prev : List TETRecord) : List TETRecord :=
  if records = [] then prev
  else
    let m0 := prev.foldl (fun m r => jsMapSet m r.id r) []
    let m1 := records.foldl (mergeStep regionName) m0
    m1.map Prod.snd

theorem jsMapSet_values (P : TETRecord → Prop) {m : List (String × TETRecord)}
    (hm : ∀ p ∈ m, P p.2) {k : String} {v : TETRecord} (hv : P v) :
    ∀ p ∈ jsMapSet m k v, P p.2 := by
  intro p hp
  unfold jsMapSet at hp
  by_cases hany : m.any (fun p => p.1 == k)
  · rw [if_pos hany] at hp
    obtain ⟨q, hq, hqe⟩ := List.mem_map.mp hp
    by_cases hqk : q.1 == k
    · rw [if_pos hqk] at hqe; rw [← hqe]; exact hv
    · rw [if_neg hqk] at hqe; rw [← hqe]; exact hm q hq
  · rw [if_neg hany] at hp
    rcases List.mem_append.mp hp with hp | hp
    · exact hm p hp
    · rw [List.mem_singleton.mp hp]; exact hv

theorem mergeStep_ids (regionName : String) (m : List (String × TETRecord))
    (hm : ∀ p ∈ m, p.2.id ≠ "") (a : Option TETRecord) :
    ∀ p ∈ mergeStep regionName m a, p.2.id ≠ "" := by
  cases a with
  | none => exact hm
  | some r =>
    by_cases hid : r.id ≠ ""
    · intro p hp
      rw [mergeStep, if_pos hid] at hp
      exact jsMapSet_values (fun v => v.id ≠ "") hm
        (show ({ r with regionName := regionName } : TETRecord).id ≠ "" from hid) p hp
    · intro p hp
      rw [mergeStep, if_neg hid] at hp
      exact hm p hp

theorem foldl_mergeStep_ids (regionName : String) (l : List (Option TETRecord)) :
    ∀ (m : List (String × TETRecord)), (∀ p ∈ m, p.2.id ≠ "") →
      ∀ p ∈ l.foldl (mergeStep regionName) m, p.2.id ≠ "" := by
  induction l with
  | nil => intro m hm p hp; exact hm p hp
  | cons a l ih =>
    intro m hm p hp
    rw [List.foldl_cons] at hp
    exact ih _ (mergeStep_ids regionName m hm a) p hp

theorem seed_map_ids (l : List TETRecord) :
    ∀ (m : List (String × TETRecord)), (∀ r ∈ l, r.id ≠ "") → (∀ p ∈ m, p.2.id ≠ "") →
      ∀ p ∈ l.foldl (fun m r => jsMapSet m r.id r) m, p.2.id ≠ "" := by
  induction l with
  | nil => intro m _ hm p hp; exact hm p hp
  | cons a l ih =>
    intro m hl hm p hp
    rw [List.foldl_cons] at hp
    exact ih _ (fun r hr => hl r (List.mem_cons_of_mem a hr))
      (jsMapSet_values (fun v => v.id ≠ "") hm (hl a (List.mem_cons_self a l))) p hp

/-- Claim C9: every record in the WorkingSet has a truthy id. The merge step
skips fetched or cached records that are missing or have a falsy id, so the
all-ids-truthy invariant of tetData is preserved by every merge, and eviction
only filters the list, so it is preserved by every eviction as well. -/
theorem workingSet_ids_truthy (regionName : String) (records : List (Option TETRecord))
    (prev : List TETRecord) (hprev : ∀ r ∈ prev, r.id ≠ "") (s : ViewState)
    (hs : ∀ r ∈ s.tetData, r.id ≠ "") (nm : String) :
    (∀ r ∈ mergeRegionRecords regionName records prev, r.id ≠ "") ∧
    (∀ r ∈ (fireRegionEviction nm s).tetData, r.id ≠ "") := by
  constructor
  · intro r hr
    unfold mergeRegionRecords at hr
    by_cases hrec : records = []
    · rw [if_pos hrec] at hr; exact hprev r hr
    · rw [if_neg hrec] at hr
      simp only at hr
      obtain ⟨p, hp, hpr⟩ := List.mem_map.mp hr
      have h0 := seed_map_ids prev [] hprev (by intro p hp; cases hp)
      rw [← hpr]
      exact foldl_mergeStep_ids regionName records _ h0 p hp
  · intro r hr
    exact hs r (List.mem_of_mem_filter hr)

/-- Witness for workingSet_ids_truthy at a concrete merge and eviction. -/
theorem workingSet_ids_truthy_witness :
    (∀ r ∈ [TETRecord.mk "p1" "a" none none ""], r.id ≠ "") ∧
    (∀ r ∈ mergeRegionRecords "reg" [some (TETRecord.mk "p2" "b" none none ""), none]
        [TETRecord.mk "p1" "a" none none ""], r.id ≠ "") ∧
    (∀ r ∈ (fireRegionEviction "reg"
        (ViewState.mk [TETRecord.mk "p1" "a" none none "reg"] [] [] [] [] [])).tetData,
      r.id ≠ "") := by
  have h := workingSet_ids_truthy "reg" [some (TETRecord.mk "p2" "b" none none ""), none]
    [TETRecord.mk "p1" "a" none none ""] (by decide)
    (ViewState.mk [TETRecord.mk "p1" "a" none none "reg"] [] [] [] [] []) (by decide) "reg"
  exact ⟨by decide, h.1, h.2⟩

/-- Deduplication step of buildOutlinePolygon: points are keyed by the exact
x:y coordinate string, keeping the first occurrence in order; two points share a
key exactly when their coordinate pairs are equal, so the Map is modelled by
first-occurrence dedup on pairs. -/
def dedupPoints (points : List (ℚ × ℚ)) : List (ℚ × ℚ) :=
  points.foldl (fun acc p => if p ∈ acc then acc else acc ++ [p]) []

/-- Insertion step of the comparator sort of buildOutlinePolygon: ascending by
x, ties broken by y. On the duplicate-free point sets it is applied to this
comparator is a strict total order, so any comparison sort yields this order. -/
def insertPt (p : ℚ × ℚ) : List (ℚ × ℚ) → List (ℚ × ℚ)
  | [] => [p]
  | q :: t => if p.1 < q.1 ∨ (p.1 = q.1 ∧ p.2 ≤ q.2) then p :: q :: t else q :: insertPt p t

/-- Sort by (x, then y) from buildOutlinePolygon. -/
def sortPoints (l : List (ℚ × ℚ)) : List (ℚ × ℚ) :=
  l.foldr insertPt []

/-- Cross product of buildOutlinePolygon. -/
def cross (o a b : ℚ × ℚ) : ℚ :=
  (a.1 - o.1) * (b.2 - o.2) - (a.2 - o.2) * (b.1 - o.1)

/-- The pop-while of a chain build: the chain stack is kept in reverse order
(most recent point first), and points making a non-left turn (cross at most 0)
with the incoming point are popped. -/
def popChain (p : ℚ × ℚ) : List (ℚ × ℚ) → List (ℚ × ℚ)
  | a :: b :: t => if cross b a p ≤ 0 then popChain p (b :: t) else a :: b :: t
  | l => l

/-- One chain (lower or upper) of buildOutlinePolygon over an input traversal
order, returned in traversal order. -/
def buildChain (pts : List (ℚ × ℚ)) : List (ℚ × ℚ) :=
  (pts.foldl (fun st p => p :: popChain p st) []).reverse

/-- The open hull of buildOutlinePolygon: lower chain over the sorted unique
points and upper chain over their reversal, each with its final chain-joining
point dropped (slice(0, -1)), concatenated. -/
def hullChain (pts : List (ℚ × ℚ)) : List (ℚ × ℚ) :=
  let sorted := sortPoints (dedupPoints pts)
  (buildChain sorted).dropLast ++ (buildChain sorted.reverse).dropLast

/-- buildOutlinePolygon from pointer-utils: null below 3 raw points, null below
3 distinct points after dedup, monotone-chain hull, null again when fewer than 3
hull vertices survive, otherwise the ring closed by repeating the first hull
vertex (returned here as the ring itself rather than the GeoJSON wrapper). -/
def buildOutlinePolygon (pts : List (ℚ × ℚ)) : Option (List (ℚ × ℚ)) :=
  if pts.length < 3 then none
  else
    let uniq := dedupPoints pts
    if uniq.length < 3 then none
    else
      let hull := hullChain pts
      if hull.length < 3 then none
      else some (hull ++ [hull.headI])

theorem dedup_foldl_mem {P : ℚ × ℚ → Prop} :
    ∀ (l acc : List (ℚ × ℚ)), (∀ q ∈ acc, P q) → (∀ q ∈ l, P q) →
      ∀ q ∈ l.foldl (fun acc p => if p ∈ acc then acc else acc ++ [p]) acc, P q := by
  intro l
  induction l with
  | nil => intro acc hacc _ q hq; exact hacc q hq
  | cons a l ih =>
    intro acc hacc hl q hq
    rw [List.foldl_cons] at hq
    by_cases ha : a ∈ acc
    · rw [if_pos ha] at hq
      exact ih acc hacc (fun x hx => hl x (List.mem_cons_of_mem a hx)) q hq
    · rw [if_neg ha] at hq
      refine ih _ ?_ (fun x hx => hl x (List.mem_cons_of_mem a hx)) q hq
      intro x hx
      rcases List.mem_append.mp hx with hx | hx
      · exact hacc x hx
      · rw [List.mem_singleton.mp hx]; exact hl a (List.mem_cons_self a l)

theorem dedupPoints_mem {pts : List (ℚ × ℚ)} {q : ℚ × ℚ} (h : q ∈ dedupPoints pts) :
    q ∈ pts :=
  dedup_foldl_mem pts [] (by intro x hx; cases hx) (fun x hx => hx) q h

theorem dedupPoints_length_le (pts : List (ℚ × ℚ)) :
    (dedupPoints pts).length ≤ pts.length := by
  have hgen : ∀ (l acc : List (ℚ × ℚ)),
      (l.foldl (fun acc p => if p ∈ acc then acc else acc ++ [p]) acc).length ≤
        acc.length + l.length := by
    intro l
    induction l with
    | nil => intro acc; simp
    | cons a l ih =>
      intro acc
      rw [List.foldl_cons]
      by_cases ha : a ∈ acc
      · rw [if_pos ha]
        calc _ ≤ acc.length + l.length := ih acc
          _ ≤ acc.length + (a :: l).length := by simp [Nat.add_le_add_iff_left]
      · rw [if_neg ha]
        calc _ ≤ (acc ++ [a]).length + l.length := ih _
          _ = acc.length + (a :: l).length := by simp [Nat.add_comm, Nat.add_assoc, Nat.add_left_comm]
  simpa using hgen pts []

theorem insertPt_mem {p q : ℚ × ℚ} : ∀ {l : List (ℚ × ℚ)}, q ∈ insertPt p l → q = p ∨ q ∈ l := by
  intro l
  induction l with
  | nil => intro h; rcases List.mem_singleton.mp h with rfl; exact Or.inl rfl
  | cons a t ih =>
    intro h
    rw [insertPt] at h
    by_cases hc : p.1 < a.1 ∨ (p.1 = a.1 ∧ p.2 ≤ a.2)
    · rw [if_pos hc] at h
      rcases List.mem_cons.mp h with rfl | h
      · exact Or.inl rfl
      · exact Or.inr h
    · rw [if_neg hc] at h
      rcases List.mem_cons.mp h with rfl | h
      · exact Or.inr (List.mem_cons_self _ _)
      · rcases ih h with h | h
        · exact Or.inl h
        · exact Or.inr (List.mem_cons_of_mem _ h)

theorem sortPoints_mem {q : ℚ × ℚ} : ∀ {l : List (ℚ × ℚ)}, q ∈ sortPoints l → q ∈ l := by
  intro l
  induction l with
  | nil => intro h; cases h
  | cons a t ih =>
    intro h
    rw [sortPoints, List.foldr_cons] at h
    rcases insertPt_mem h with rfl | h
    · exact List.mem_cons_self _ _
    · exact List.mem_cons_of_mem _ (ih h)

theorem popChain_mem {p q : ℚ × ℚ} : ∀ {l : List (ℚ × ℚ)}, q ∈ popChain p l → q ∈ l
  | [], h => h
  | [_], h => h
  | a :: b :: t, h => by
    rw [popChain] at h
    by_cases hc : cross b a p ≤ 0
    · rw [if_pos hc] at h
      exact List.mem_cons_of_mem _ (popChain_mem h)
    · rw [if_neg hc] at h
      exact h

theorem buildChain_mem {q : ℚ × ℚ} {pts : List (ℚ × ℚ)} (h : q ∈ buildChain pts) :
    q ∈ pts := by
  rw [buildChain, List.mem_reverse] at h
  have hgen : ∀ (l st : List (ℚ × ℚ)), (∀ x ∈ st, x ∈ pts) → (∀ x ∈ l, x ∈ pts) →
      ∀ x ∈ l.foldl (fun st p => p :: popChain p st) st, x ∈ pts := by
    intro l
    induction l with
    | nil => intro st hst _ x hx; exact hst x hx
    | cons a l ih =>
      intro st hst hl x hx
      rw [List.foldl_cons] at hx
      refine ih _ ?_ (fun y hy => hl y (List.mem_cons_of_mem a hy)) x hx
      intro y hy
      rcases List.mem_cons.mp hy with h1 | hy
      · rw [h1]; exact hl a (List.mem_cons_self a l)
      · exact hst y (popChain_mem hy)
  exact hgen pts [] (by intro x hx; cases hx) (fun x hx => hx) q h

theorem hullChain_mem {q : ℚ × ℚ} {pts : List (ℚ × ℚ)} (h : q ∈ hullChain pts) :
    q ∈ pts := by
  rw [hullChain] at h
  rcases List.mem_append.mp h with h | h
  · exact dedupPoints_mem (sortPoints_mem (buildChain_mem (List.dropLast_subset _ h)))
  · have := buildChain_mem (List.dropLast_subset _ h)
    rw [List.mem_reverse] at this
    exact dedupPoints_mem (sortPoints_mem this)

/-- Counterexample to claim C4 as stated: on three distinct collinear points the
dedup keeps all 3 points, yet buildOutlinePolygon returns null because the
monotone chains collapse to fewer than 3 hull vertices, instead of returning a
hull ring as the claim requires of every input with at least 3 distinct
points. -/
theorem buildOutlinePolygon_collinear_cex :
    (dedupPoints [((0 : ℚ), (0 : ℚ)), (1, 0), (2, 0)]).length = 3 ∧
    buildOutlinePolygon [((0 : ℚ), (0 : ℚ)), (1, 0), (2, 0)] = none := by
  constructor <;>
    norm_num [buildOutlinePolygon, dedupPoints, hullChain, buildChain, sortPoints, insertPt,
      popChain, cross, Prod.ext_iff]

/-- Claim C4 (amended): buildOutlinePolygon deduplicates points by exact
coordinate match and returns null whenever fewer than 3 distinct points remain
after deduplication, or when the monotone chains built over the sorted distinct
points (discarding non-left turns, cross at most 0, and dropping the duplicated
chain-joining points) leave fewer than 3 hull vertices, as happens when all
distinct points are collinear; otherwise it returns that chain hull closed into
a ring by repeating the first vertex, every ring vertex being one of the input
points. -/
theorem buildOutlinePolygon_spec (pts : List (ℚ × ℚ)) :
    (buildOutlinePolygon pts = none ↔
      (dedupPoints pts).length < 3 ∨ (hullChain pts).length < 3) ∧
    (∀ ring, buildOutlinePolygon pts = some ring →
      ring = hullChain pts ++ [(hullChain pts).headI] ∧
      ring.head? = ring.getLast? ∧
      3 ≤ (dedupPoints pts).length ∧
      ∀ p ∈ ring, p ∈ pts) := by
  constructor
  · unfold buildOutlinePolygon
    by_cases h1 : pts.length < 3
    · rw [if_pos h1]
      simp only [true_iff]
      exact Or.inl (lt_of_le_of_lt (dedupPoints_length_le pts) h1)
    · rw [if_neg h1]
      simp only
      by_cases h2 : (dedupPoints pts).length < 3
      · simp [if_pos h2, h2]
      · rw [if_neg h2]
        by_cases h3 : (hullChain pts).length < 3
        · simp [if_pos h3, h3]
        · simp [if_neg h3, h2, h3]
  · intro ring hring
    unfold buildOutlinePolygon at hring
    by_cases h1 : pts.length < 3
    · rw [if_pos h1] at hring; cases hring
    · rw [if_neg h1] at hring
      simp only at hring
      by_cases h2 : (dedupPoints pts).length < 3
      · rw [if_pos h2] at hring; cases hring
      · rw [if_neg h2] at hring
        by_cases h3 : (hullChain pts).length < 3
        · rw [if_pos h3] at hring; cases hring
        · rw [if_neg h3] at hring
          have hring2 := Option.some_inj.mp hring
          have hne : hullChain pts ≠ [] := by
            intro hnil
            rw [hnil] at h3
            exact h3 (by simp)
          obtain ⟨a, t, hat⟩ := List.exists_cons_of_ne_nil hne
          refine ⟨hring2.symm, ?_, not_lt.mp h2, ?_⟩
          · rw [← hring2, hat, List.getLast?_concat]
            simp [List.headI]
          · intro p hp
            rw [← hring2] at hp
            rcases List.mem_append.mp hp with hp | hp
            · exact hullChain_mem hp
            · rw [List.mem_singleton.mp hp, hat]
              exact hullChain_mem (by rw [hat]; simp [List.headI])

/-- Witness for buildOutlinePolygon_spec at a concrete square input. -/
theorem buildOutlinePolygon_spec_witness :
    buildOutlinePolygon [((0 : ℚ), (0 : ℚ)), (2, 0), (0, 2), (2, 2)] =
      some [(0, 0), (2, 0), (2, 2), (0, 2), (0, 0)] ∧
    ([((0 : ℚ), (0 : ℚ)), (2, 0), (2, 2), (0, 2), (0, 0)] =
        hullChain [((0 : ℚ), (0 : ℚ)), (2, 0), (0, 2), (2, 2)] ++
          [(hullChain [((0 : ℚ), (0 : ℚ)), (2, 0), (0, 2), (2, 2)]).headI] ∧
      ([((0 : ℚ), (0 : ℚ)), (2, 0), (2, 2), (0, 2), (0, 0)]).head? =
        ([((0 : ℚ), (0 : ℚ)), (2, 0), (2, 2), (0, 2), (0, 0)]).getLast? ∧
      3 ≤ (dedupPoints [((0 : ℚ), (0 : ℚ)), (2, 0), (0, 2), (2, 2)]).length ∧
      ∀ p ∈ [((0 : ℚ), (0 : ℚ)), (2, 0), (2, 2), (0, 2), (0, 0)],
        p ∈ [((0 : ℚ), (0 : ℚ)), (2, 0), (0, 2), (2, 2)]) :=
  ⟨by
    norm_num [buildOutlinePolygon, dedupPoints, hullChain, buildChain, sortPoints, insertPt,
      popChain, cross, Prod.ext_iff],
    (buildOutlinePolygon_spec [((0 : ℚ), (0 : ℚ)), (2, 0), (0, 2), (2, 2)]).2
      [(0, 0), (2, 0), (2, 2), (0, 2), (0, 0)] (by
        norm_num [buildOutlinePolygon, dedupPoints, hullChain, buildChain, sortPoints, insertPt,
          popChain, cross, Prod.ext_iff])⟩

/-- Point handed to the cluster engine: a record centroid as a coordinate pair,
with rational coordinates. -/
abbrev Pt := ℚ × ℚ

section Dbscan

variable (dist : Pt → Pt → ℚ) (eps : ℚ) (minPts : ℕ) (points : List Pt)

/-- Indexing points[k] of the JS points array; all indices handled by the
algorithm are in range. -/
def ptAt (k : ℕ) : Pt :=
  points.getD k (0, 0)

/-- MapManager._dbscan regionQuery: the indices of all points within eps of the
point at idx, under the host distance function dist (Leaflet map.distance). -/
def regionQuery (idx : ℕ) : List ℕ :=
  (List.range points.length).filter (fun j => dist (ptAt points idx) (ptAt points j) ≤ eps)

/-- The expansion-loop pushes with the queue.includes duplicate guard. -/
def pushAll (q l : List ℕ) : List ℕ :=
  l.foldl (fun acc j => if j ∈ acc then acc else acc ++ [j]) q

theorem pushAll_cons (q : List ℕ) (a : ℕ) (l : List ℕ) :
    pushAll q (a :: l) = pushAll (if a ∈ q then q else q ++ [a]) l := rfl

theorem mem_pushAll {l : List ℕ} : ∀ {q : List ℕ} {j : ℕ}, j ∈ pushAll q l → j ∈ q ∨ j ∈ l := by
  induction l with
  | nil => intro q j h; exact Or.inl h
  | cons a l ih =>
    intro q j h
    rw [pushAll_cons] at h
    rcases ih h with h | h
    · by_cases ha : a ∈ q
      · rw [if_pos ha] at h; exact Or.inl h
      · rw [if_neg ha] at h
        rcases List.mem_append.mp h with h | h
        · exact Or.inl h
        · rw [List.mem_singleton.mp h]; exact Or.inr (List.mem_cons_self a l)
    · exact Or.inr (List.mem_cons_of_mem a h)

theorem mem_pushAll_left {l : List ℕ} : ∀ {q : List ℕ} {j : ℕ}, j ∈ q → j ∈ pushAll q l := by
  induction l with
  | nil => intro q j h; exact h
  | cons a l ih =>
    intro q j h
    rw [pushAll_cons]
    apply ih
    by_cases ha : a ∈ q
    · rw [if_pos ha]; exact h
    · rw [if_neg ha]; exact List.mem_append_left _ h

theorem mem_pushAll_right {l : List ℕ} : ∀ {q : List ℕ} {j : ℕ}, j ∈ l → j ∈ pushAll q l := by
  induction l with
  | nil => intro q j h; cases h
  | cons a l ih =>
    intro q j h
    rcases List.mem_cons.mp h with h1 | h1
    · rw [pushAll_cons, h1]
      apply mem_pushAll_left
      by_cases ha : a ∈ q
      · rw [if_pos ha]; exact ha
      · rw [if_neg ha]; exact List.mem_append_right _ (List.mem_singleton.mpr rfl)
    · rw [pushAll_cons]; exact ih h1

theorem regionQuery_lt {idx j : ℕ} (h : j ∈ regionQuery dist eps points idx) :
    j < points.length := by
  rw [regionQuery, List.mem_filter] at h
  exact List.mem_range.mp h.1

theorem mem_regionQuery {idx j : ℕ} :
    j ∈ regionQuery dist eps points idx ↔
      j < points.length ∧ dist (ptAt points idx) (ptAt points j) ≤ eps := by
  rw [regionQuery, List.mem_filter, List.mem_range, decide_eq_true_eq]

theorem sdiff_insert_card_lt {n idx : ℕ} {V : Finset ℕ} (hlt : idx < n) (hv : idx ∉ V) :
    (Finset.range n \ insert idx V).card < (Finset.range n \ V).card := by
  apply Finset.card_lt_card
  constructor
  · intro x hx
    simp only [Finset.mem_sdiff, Finset.mem_insert] at hx ⊢
    exact ⟨hx.1, fun h => hx.2 (Or.inr h)⟩
  · intro hsub
    have h1 : idx ∈ Finset.range n \ V := by
      simp [Finset.mem_sdiff, Finset.mem_range, hlt, hv]
    have h2 := hsub h1
    simp [Finset.mem_sdiff] at h2

/-- The while queue.length loop of MapManager._dbscan expanding one cluster.
The state carries the queue, the visited and assigned flags and the dequeued
cluster indices so far; every dequeued index is appended to the cluster, an
unvisited dequeued index is marked visited and, when its own neighborhood
reaches minPts, its neighbors not already queued are pushed. The final
hypothesis keeps queue entries in range and drives termination. -/
def expand : (queue : List ℕ) → (visited : Finset ℕ) → (assigned : Finset ℕ) →
    (acc : List ℕ) → (∀ j ∈ queue, j < points.length) → List ℕ × Finset ℕ × Finset ℕ
  | [], visited, assigned, acc, _ => (acc, visited, assigned)
  | idx :: rest, visited, assigned, acc, hq =>
    if hv : idx ∈ visited then
      expand rest visited (insert idx assigned) (acc ++ [idx])
        (fun j hj => hq j (List.mem_cons_of_mem idx hj))
    else
      if hcore : minPts ≤ (regionQuery dist eps points idx).length then
        expand (pushAll rest (regionQuery dist eps points idx)) (insert idx visited)
          (insert idx assigned) (acc ++ [idx])
          (fun j hj => by
            rcases mem_pushAll hj with h | h
            · exact hq j (List.mem_cons_of_mem idx h)
            · exact regionQuery_lt dist eps points h)
      else
        expand rest (insert idx visited) (insert idx assigned) (acc ++ [idx])
          (fun j hj => hq j (List.mem_cons_of_mem idx hj))
termination_by q v a acc hq => ((Finset.range points.length \ v).card, q.length)
decreasing_by
  · apply Prod.Lex.right
    simp
  · apply Prod.Lex.left
    exact sdiff_insert_card_lt (hq idx (List.mem_cons_self idx rest)) hv
  · apply Prod.Lex.left
    exact sdiff_insert_card_lt (hq idx (List.mem_cons_self idx rest)) hv

/-- One iteration of the outer for loop of MapManager._dbscan over the state of
visited flags, assigned flags and materialized clusters: an unvisited index is
marked visited, checked against minPts (noise seeds produce nothing) and
otherwise seeds a cluster expansion whose dequeued indices are materialized to
points. -/
def dbscanLoop (st : Finset ℕ × Finset ℕ × List (List Pt)) (i : ℕ) :
    Finset ℕ × Finset ℕ × List (List Pt) :=
  if i ∈ st.1 then st
  else
    if (regionQuery dist eps points i).length < minPts then (insert i st.1, st.2.1, st.2.2)
    else
      let r := expand dist eps minPts points (regionQuery dist eps points i) (insert i st.1)
        (insert i st.2.1) [] (fun j hj => regionQuery_lt dist eps points hj)
      (r.2.1, r.2.2, st.2.2 ++ [r.1.map (ptAt points)])

/-- MapManager._dbscan: the clusters produced by running the outer loop over all
point indices. -/
def dbscan : List (List Pt) :=
  ((List.range points.length).foldl (dbscanLoop dist eps minPts points) (∅, ∅, [])).2.2

/-- Core point at the index level: a valid index whose eps-neighborhood reaches
minPts. -/
def IsCore (i : ℕ) : Prop :=
  i < points.length ∧ minPts ≤ (regionQuery dist eps points i).length

/-- Direct density connection between two core indices. -/
def CoreAdj (i j : ℕ) : Prop :=
  IsCore dist eps minPts points i ∧ IsCore dist eps minPts points j ∧
    dist (ptAt points i) (ptAt points j) ≤ eps

/-- Chains of direct density connections between cores. -/
def CoreReach : ℕ → ℕ → Prop :=
  Relation.ReflTransGen (CoreAdj dist eps minPts points)

/-- The index set of the cluster grown from a core index c: everything in the
eps-neighborhood of any core density-reachable from c. -/
def ClusterIdxSet (c : ℕ) : Set ℕ :=
  setOf (fun j => ∃ cB, CoreReach dist eps minPts points c cB ∧
    IsCore dist eps minPts points cB ∧ j ∈ regionQuery dist eps points cB)

theorem coreAdj_symm (hsym : ∀ a b, dist a b = dist b a) {i j : ℕ}
    (h : CoreAdj dist eps minPts points i j) : CoreAdj dist eps minPts points j i :=
  ⟨h.2.1, h.1, by rw [hsym]; exact h.2.2⟩

theorem coreReach_symm (hsym : ∀ a b, dist a b = dist b a) {i j : ℕ}
    (h : CoreReach dist eps minPts points i j) : CoreReach dist eps minPts points j i :=
  Relation.ReflTransGen.symmetric (fun _ _ hadj => coreAdj_symm dist eps minPts points hsym hadj) h

theorem clusterIdxSet_lt {c j : ℕ} (h : j ∈ ClusterIdxSet dist eps minPts points c) :
    j < points.length := by
  obtain ⟨cB, _, _, hmem⟩ := h
  exact regionQuery_lt dist eps points hmem

theorem mem_clusterIdxSet_of_query {c j : ℕ} (hc : IsCore dist eps minPts points c)
    (hj : j ∈ regionQuery dist eps points c) : j ∈ ClusterIdxSet dist eps minPts points c :=
  ⟨c, Relation.ReflTransGen.refl, hc, hj⟩

theorem coreReach_of_mem {c j : ℕ} (hc : IsCore dist eps minPts points c)
    (hj : j ∈ ClusterIdxSet dist eps minPts points c) (hjc : IsCore dist eps minPts points j) :
    CoreReach dist eps minPts points c j := by
  obtain ⟨cB, hreach, hcoreB, hmem⟩ := hj
  exact hreach.tail ⟨hcoreB, hjc, ((mem_regionQuery dist eps points).mp hmem).2⟩

theorem coreReach_mem_or_eq {c cB : ℕ} (h : CoreReach dist eps minPts points c cB)
    (hcB : IsCore dist eps minPts points cB) :
    cB = c ∨ cB ∈ ClusterIdxSet dist eps minPts points c := by
  rcases Relation.ReflTransGen.cases_tail h with h1 | ⟨b, hreach, hadj⟩
  · exact Or.inl h1
  · refine Or.inr ⟨b, hreach, hadj.1, ?_⟩
    exact (mem_regionQuery dist eps points).mpr ⟨hcB.1, hadj.2.2⟩

theorem clusterIdxSet_congr (hsym : ∀ a b, dist a b = dist b a) {c d : ℕ}
    (h : CoreReach dist eps minPts points c d) :
    ClusterIdxSet dist eps minPts points c = ClusterIdxSet dist eps minPts points d := by
  ext j
  constructor
  · rintro ⟨cB, hreach, hcoreB, hmem⟩
    exact ⟨cB, Relation.ReflTransGen.trans
      (coreReach_symm dist eps minPts points hsym h) hreach, hcoreB, hmem⟩
  · rintro ⟨cB, hreach, hcoreB, hmem⟩
    exact ⟨cB, Relation.ReflTransGen.trans h hreach, hcoreB, hmem⟩

theorem expand_eq_nil (V A : Finset ℕ) (acc : List ℕ) (h : ∀ j ∈ ([] : List ℕ), j < points.length) :
    expand dist eps minPts points [] V A acc h = (acc, V, A) := by
  rw [expand]

theorem expand_eq_visited {idx : ℕ} {V : Finset ℕ} (hv : idx ∈ V) (rest : List ℕ)
    (A : Finset ℕ) (acc : List ℕ) (hq : ∀ j ∈ idx :: rest, j < points.length)
    (hq2 : ∀ j ∈ rest, j < points.length) :
    expand dist eps minPts points (idx :: rest) V A acc hq =
      expand dist eps minPts points rest V (insert idx A) (acc ++ [idx]) hq2 := by
  rw [expand, dif_pos hv]

theorem expand_eq_core {idx : ℕ} {V : Finset ℕ} (hv : idx ∉ V)
    (hcore : minPts ≤ (regionQuery dist eps points idx).length) (rest : List ℕ)
    (A : Finset ℕ) (acc : List ℕ) (hq : ∀ j ∈ idx :: rest, j < points.length)
    (hq2 : ∀ j ∈ pushAll rest (regionQuery dist eps points idx), j < points.length) :
    expand dist eps minPts points (idx :: rest) V A acc hq =
      expand dist eps minPts points (pushAll rest (regionQuery dist eps points idx))
        (insert idx V) (insert idx A) (acc ++ [idx]) hq2 := by
  rw [expand, dif_neg hv, dif_pos hcore]

theorem expand_eq_noncore {idx : ℕ} {V : Finset ℕ} (hv : idx ∉ V)
    (hcore : ¬ minPts ≤ (regionQuery dist eps points idx).length) (rest : List ℕ)
    (A : Finset ℕ) (acc : List ℕ) (hq : ∀ j ∈ idx :: rest, j < points.length)
    (hq2 : ∀ j ∈ rest, j < points.length) :
    expand dist eps minPts points (idx :: rest) V A acc hq =
      expand dist eps minPts points rest (insert idx V) (insert idx A) (acc ++ [idx]) hq2 := by
  rw [expand, dif_neg hv, dif_neg hcore]

theorem expand_acc_prefix : ∀ (q : List ℕ) (V A : Finset ℕ) (acc : List ℕ)
    (hq : ∀ j ∈ q, j < points.length),
    ∃ t, (expand dist eps minPts points q V A acc hq).1 = acc ++ t := by
  intro q V A acc hq
  induction q, V, A, acc, hq using expand.induct dist eps minPts points with
  | case1 V A acc x hdup => exact ⟨[], by rw [expand_eq_nil]; simp⟩
  | case2 idx rest V A acc hq hv hdup ih =>
    obtain ⟨t, ht⟩ := ih
    refine ⟨idx :: t, ?_⟩
    rw [expand_eq_visited dist eps minPts points hv rest A acc hq
      (fun j hj => hq j (List.mem_cons_of_mem idx hj))]
    simpa using ht
  | case3 idx rest V A acc hq hv hcore hdup ih =>
    obtain ⟨t, ht⟩ := ih
    refine ⟨idx :: t, ?_⟩
    rw [expand_eq_core dist eps minPts points hv hcore rest A acc hq
      (fun j hj => by
        rcases mem_pushAll hj with h | h
        · exact hq j (List.mem_cons_of_mem idx h)
        · exact regionQuery_lt dist eps points h)]
    simpa using ht
  | case4 idx rest V A acc hq hv hcore hdup ih =>
    obtain ⟨t, ht⟩ := ih
    refine ⟨idx :: t, ?_⟩
    rw [expand_eq_noncore dist eps minPts points hv hcore rest A acc hq
      (fun j hj => hq j (List.mem_cons_of_mem idx hj))]
    simpa using ht

theorem expand_mem_queue : ∀ (q : List ℕ) (V A : Finset ℕ) (acc : List ℕ)
    (hq : ∀ j ∈ q, j < points.length) (j : ℕ), j ∈ q →
    j ∈ (expand dist eps minPts points q V A acc hq).1 := by
  intro q V A acc hq
  induction q, V, A, acc, hq using expand.induct dist eps minPts points with
  | case1 V A acc x hdup => intro j hj; cases hj
  | case2 idx rest V A acc hq hv hdup ih =>
    intro j hj
    rw [expand_eq_visited dist eps minPts points hv rest A acc hq
      (fun x hx => hq x (List.mem_cons_of_mem idx hx))]
    rcases List.mem_cons.mp hj with h1 | h1
    · obtain ⟨t, ht⟩ := expand_acc_prefix dist eps minPts points rest V (insert idx A)
        (acc ++ [idx]) (fun x hx => hq x (List.mem_cons_of_mem idx hx))
      rw [ht, h1]
      exact List.mem_append_left _ (List.mem_append_right _ (List.mem_singleton.mpr rfl))
    · exact ih j h1
  | case3 idx rest V A acc hq hv hcore hdup ih =>
    intro j hj
    have hq2 : ∀ x ∈ pushAll rest (regionQuery dist eps points idx), x < points.length :=
      fun x hx => by
        rcases mem_pushAll hx with h | h
        · exact hq x (List.mem_cons_of_mem idx h)
        · exact regionQuery_lt dist eps points h
    rw [expand_eq_core dist eps minPts points hv hcore rest A acc hq hq2]
    rcases List.mem_cons.mp hj with h1 | h1
    · obtain ⟨t, ht⟩ := expand_acc_prefix dist eps minPts points
        (pushAll rest (regionQuery dist eps points idx)) (insert idx V) (insert idx A)
        (acc ++ [idx]) hq2
      rw [ht, h1]
      exact List.mem_append_left _ (List.mem_append_right _ (List.mem_singleton.mpr rfl))
    · exact ih j (mem_pushAll_left h1)
  | case4 idx rest V A acc hq hv hcore hdup ih =>
    intro j hj
    rw [expand_eq_noncore dist eps minPts points hv hcore rest A acc hq
      (fun x hx => hq x (List.mem_cons_of_mem idx hx))]
    rcases List.mem_cons.mp hj with h1 | h1
    · obtain ⟨t, ht⟩ := expand_acc_prefix dist eps minPts points rest (insert idx V)
        (insert idx A) (acc ++ [idx]) (fun x hx => hq x (List.mem_cons_of_mem idx hx))
      rw [ht, h1]
      exact List.mem_append_left _ (List.mem_append_right _ (List.mem_singleton.mpr rfl))
    · exact ih j h1

theorem expand_visited_iff : ∀ (q : List ℕ) (V A : Finset ℕ) (acc : List ℕ)
    (hq : ∀ j ∈ q, j < points.length), (∀ x ∈ acc, x ∈ V) → ∀ j,
    (j ∈ (expand dist eps minPts points q V A acc hq).2.1 ↔
      j ∈ V ∨ j ∈ (expand dist eps minPts points q V A acc hq).1) := by
  intro q V A acc hq
  induction q, V, A, acc, hq using expand.induct dist eps minPts points with
  | case1 V A acc x hdup =>
    intro hacc j
    rw [expand_eq_nil]
    constructor
    · exact fun h => Or.inl h
    · rintro (h | h)
      · exact h
      · exact hacc j h
  | case2 idx rest V A acc hq hv hdup ih =>
    intro hacc j
    rw [expand_eq_visited dist eps minPts points hv rest A acc hq
      (fun x hx => hq x (List.mem_cons_of_mem idx hx))]
    refine ih ?_ j
    intro x hx
    rcases List.mem_append.mp hx with h | h
    · exact hacc x h
    · rw [List.mem_singleton.mp h]; exact hv
  | case3 idx rest V A acc hq hv hcore hdup ih =>
    intro hacc j
    have hq2 : ∀ x ∈ pushAll rest (regionQuery dist eps points idx), x < points.length :=
      fun x hx => by
        rcases mem_pushAll hx with h | h
        · exact hq x (List.mem_cons_of_mem idx h)
        · exact regionQuery_lt dist eps points h
    rw [expand_eq_core dist eps minPts points hv hcore rest A acc hq hq2]
    have hacc2 : ∀ x ∈ acc ++ [idx], x ∈ insert idx V := by
      intro x hx
      rcases List.mem_append.mp hx with h | h
      · exact Finset.mem_insert_of_mem (hacc x h)
      · rw [List.mem_singleton.mp h]; exact Finset.mem_insert_self _ _
    have hidx : idx ∈ (expand dist eps minPts points
        (pushAll rest (regionQuery dist eps points idx)) (insert idx V) (insert idx A)
        (acc ++ [idx]) hq2).1 := by
      obtain ⟨t, ht⟩ := expand_acc_prefix dist eps minPts points
        (pushAll rest (regionQuery dist eps points idx)) (insert idx V) (insert idx A)
        (acc ++ [idx]) hq2
      rw [ht]
      exact List.mem_append_left _ (List.mem_append_right _ (List.mem_singleton.mpr rfl))
    have hih := ih hacc2 j
    rw [hih]
    constructor
    · rintro (h | h)
      · rcases Finset.mem_insert.mp h with h1 | h1
        · rw [h1]; exact Or.inr hidx
        · exact Or.inl h1
      · exact Or.inr h
    · rintro (h | h)
      · exact Or.inl (Finset.mem_insert_of_mem h)
      · exact Or.inr h
  | case4 idx rest V A acc hq hv hcore hdup ih =>
    intro hacc j
    rw [expand_eq_noncore dist eps minPts points hv hcore rest A acc hq
      (fun x hx => hq x (List.mem_cons_of_mem idx hx))]
    have hacc2 : ∀ x ∈ acc ++ [idx], x ∈ insert idx V := by
      intro x hx
      rcases List.mem_append.mp hx with h | h
      · exact Finset.mem_insert_of_mem (hacc x h)
      · rw [List.mem_singleton.mp h]; exact Finset.mem_insert_self _ _
    have hidx : idx ∈ (expand dist eps minPts points rest (insert idx V) (insert idx A)
        (acc ++ [idx]) (fun x hx => hq x (List.mem_cons_of_mem idx hx))).1 := by
      obtain ⟨t, ht⟩ := expand_acc_prefix dist eps minPts points rest (insert idx V)
        (insert idx A) (acc ++ [idx]) (fun x hx => hq x (List.mem_cons_of_mem idx hx))
      rw [ht]
      exact List.mem_append_left _ (List.mem_append_right _ (List.mem_singleton.mpr rfl))
    have hih := ih hacc2 j
    rw [hih]
    constructor
    · rintro (h | h)
      · rcases Finset.mem_insert.mp h with h1 | h1
        · rw [h1]; exact Or.inr hidx
        · exact Or.inl h1
      · exact Or.inr h
    · rintro (h | h)
      · exact Or.inl (Finset.mem_insert_of_mem h)
      · exact Or.inr h

theorem expand_sound (s : ℕ) : ∀ (q : List ℕ) (V A : Finset ℕ) (acc : List ℕ)
    (hq : ∀ j ∈ q, j < points.length),
    (∀ j ∈ q, j ∈ ClusterIdxSet dist eps minPts points s) →
    (∀ j ∈ acc, j ∈ ClusterIdxSet dist eps minPts points s) →
    ∀ j ∈ (expand dist eps minPts points q V A acc hq).1,
      j ∈ ClusterIdxSet dist eps minPts points s := by
  intro q V A acc hq
  induction q, V, A, acc, hq using expand.induct dist eps minPts points with
  | case1 V A acc x hdup =>
    intro _ haccS j hj
    rw [expand_eq_nil] at hj
    exact haccS j hj
  | case2 idx rest V A acc hq hv hdup ih =>
    intro hqS haccS j hj
    rw [expand_eq_visited dist eps minPts points hv rest A acc hq
      (fun x hx => hq x (List.mem_cons_of_mem idx hx))] at hj
    refine ih (fun x hx => hqS x (List.mem_cons_of_mem idx hx)) ?_ j hj
    intro x hx
    rcases List.mem_append.mp hx with h | h
    · exact haccS x h
    · rw [List.mem_singleton.mp h]; exact hqS idx (List.mem_cons_self idx rest)
  | case3 idx rest V A acc hq hv hcore hdup ih =>
    intro hqS haccS j hj
    have hq2 : ∀ x ∈ pushAll rest (regionQuery dist eps points idx), x < points.length :=
      fun x hx => by
        rcases mem_pushAll hx with h | h
        · exact hq x (List.mem_cons_of_mem idx h)
        · exact regionQuery_lt dist eps points h
    rw [expand_eq_core dist eps minPts points hv hcore rest A acc hq hq2] at hj
    have hidxS : idx ∈ ClusterIdxSet dist eps minPts points s :=
      hqS idx (List.mem_cons_self idx rest)
    have hidxCore : IsCore dist eps minPts points idx :=
      ⟨clusterIdxSet_lt dist eps minPts points hidxS, hcore⟩
    have hreach : CoreReach dist eps minPts points s idx := by
      obtain ⟨cB, hr, hcB, hmem⟩ := hidxS
      exact hr.tail ⟨hcB, hidxCore, ((mem_regionQuery dist eps points).mp hmem).2⟩
    refine ih ?_ ?_ j hj
    · intro x hx
      rcases mem_pushAll hx with h | h
      · exact hqS x (List.mem_cons_of_mem idx h)
      · exact ⟨idx, hreach, hidxCore, h⟩
    · intro x hx
      rcases List.mem_append.mp hx with h | h
      · exact haccS x h
      · rw [List.mem_singleton.mp h]; exact hidxS
  | case4 idx rest V A acc hq hv hcore hdup ih =>
    intro hqS haccS j hj
    rw [expand_eq_noncore dist eps minPts points hv hcore rest A acc hq
      (fun x hx => hq x (List.mem_cons_of_mem idx hx))] at hj
    refine ih (fun x hx => hqS x (List.mem_cons_of_mem idx hx)) ?_ j hj
    intro x hx
    rcases List.mem_append.mp hx with h | h
    · exact haccS x h
    · rw [List.mem_singleton.mp h]; exact hqS idx (List.mem_cons_self idx rest)

theorem expand_core_expands : ∀ (q : List ℕ) (V A : Finset ℕ) (acc : List ℕ)
    (hq : ∀ j ∈ q, j < points.length), (∀ x ∈ acc, x ∈ V) →
    ∀ c, IsCore dist eps minPts points c → c ∉ V →
    c ∈ (expand dist eps minPts points q V A acc hq).1 →
    ∀ j ∈ regionQuery dist eps points c, j ∈ (expand dist eps minPts points q V A acc hq).1 := by
  intro q V A acc hq
  induction q, V, A, acc, hq using expand.induct dist eps minPts points with
  | case1 V A acc x hdup =>
    intro hacc c hc hcV hcacc
    rw [expand_eq_nil] at hcacc
    exact absurd (hacc c hcacc) hcV
  | case2 idx rest V A acc hq hv hdup ih =>
    intro hacc c hc hcV hcacc
    have hne : c ≠ idx := fun h => hcV (h ▸ hv)
    rw [expand_eq_visited dist eps minPts points hv rest A acc hq
      (fun x hx => hq x (List.mem_cons_of_mem idx hx))] at hcacc ⊢
    refine ih ?_ c hc hcV hcacc
    intro x hx
    rcases List.mem_append.mp hx with h | h
    · exact hacc x h
    · rw [List.mem_singleton.mp h]; exact hv
  | case3 idx rest V A acc hq hv hcore hdup ih =>
    intro hacc c hc hcV hcacc
    have hq2 : ∀ x ∈ pushAll rest (regionQuery dist eps points idx), x < points.length :=
      fun x hx => by
        rcases mem_pushAll hx with h | h
        · exact hq x (List.mem_cons_of_mem idx h)
        · exact regionQuery_lt dist eps points h
    rw [expand_eq_core dist eps minPts points hv hcore rest A acc hq hq2] at hcacc ⊢
    by_cases hcidx : c = idx
    · intro j hj
      refine expand_mem_queue dist eps minPts points _ _ _ _ hq2 j ?_
      exact mem_pushAll_right (hcidx ▸ hj)
    · have hacc2 : ∀ x ∈ acc ++ [idx], x ∈ insert idx V := by
        intro x hx
        rcases List.mem_append.mp hx with h | h
        · exact Finset.mem_insert_of_mem (hacc x h)
        · rw [List.mem_singleton.mp h]; exact Finset.mem_insert_self _ _
      have hcV2 : c ∉ insert idx V := by
        intro h
        rcases Finset.mem_insert.mp h with h1 | h1
        · exact hcidx h1
        · exact hcV h1
      exact ih hacc2 c hc hcV2 hcacc
  | case4 idx rest V A acc hq hv hcore hdup ih =>
    intro hacc c hc hcV hcacc
    by_cases hcidx : c = idx
    · exact absurd (hcidx ▸ hc.2) hcore
    · rw [expand_eq_noncore dist eps minPts points hv hcore rest A acc hq
        (fun x hx => hq x (List.mem_cons_of_mem idx hx))] at hcacc ⊢
      have hacc2 : ∀ x ∈ acc ++ [idx], x ∈ insert idx V := by
        intro x hx
        rcases List.mem_append.mp hx with h | h
        · exact Finset.mem_insert_of_mem (hacc x h)
        · rw [List.mem_singleton.mp h]; exact Finset.mem_insert_self _ _
      have hcV2 : c ∉ insert idx V := by
        intro h
        rcases Finset.mem_insert.mp h with h1 | h1
        · exact hcidx h1
        · exact hcV h1
      exact ih hacc2 c hc hcV2 hcacc

theorem expand_reach_sub (s : ℕ) (hcs : IsCore dist eps minPts points s) (V₀ A : Finset ℕ)
    (hr : ∀ j ∈ regionQuery dist eps points s, j < points.length)
    (hnot : ∀ cB, IsCore dist eps minPts points cB → CoreReach dist eps minPts points s cB →
      cB ≠ s → cB ∉ insert s V₀) :
    ∀ cB, CoreReach dist eps minPts points s cB → IsCore dist eps minPts points cB →
      ∀ j ∈ regionQuery dist eps points cB,
        j ∈ (expand dist eps minPts points (regionQuery dist eps points s) (insert s V₀) A []
          hr).1 := by
  intro cB hreach
  induction hreach with
  | refl =>
    intro _ j hj
    exact expand_mem_queue dist eps minPts points _ _ _ _ hr j hj
  | tail hsb hadj ih =>
    rename_i b c
    intro hcoreC j hj
    have hbsub := ih hadj.1
    have hcmem : c ∈ (expand dist eps minPts points (regionQuery dist eps points s)
        (insert s V₀) A [] hr).1 :=
      hbsub c ((mem_regionQuery dist eps points).mpr ⟨hcoreC.1, hadj.2.2⟩)
    by_cases hcs2 : c = s
    · exact expand_mem_queue dist eps minPts points _ _ _ _ hr j (hcs2 ▸ hj)
    · have hreachC : CoreReach dist eps minPts points s c := hsb.tail hadj
      have hcV : c ∉ insert s V₀ := hnot c hcoreC hreachC hcs2
      exact expand_core_expands dist eps minPts points _ _ _ _ hr
        (by intro x hx; cases hx) c hcoreC hcV hcmem j hj

theorem expand_cluster_eq (s : ℕ) (hcs : IsCore dist eps minPts points s) (V₀ A : Finset ℕ)
    (hr : ∀ j ∈ regionQuery dist eps points s, j < points.length)
    (hnot : ∀ cB, IsCore dist eps minPts points cB → CoreReach dist eps minPts points s cB →
      cB ≠ s → cB ∉ insert s V₀) :
    ∀ j, j ∈ (expand dist eps minPts points (regionQuery dist eps points s) (insert s V₀) A []
        hr).1 ↔ j ∈ ClusterIdxSet dist eps minPts points s := by
  intro j
  constructor
  · intro hj
    refine expand_sound dist eps minPts points s _ _ _ _ hr ?_ ?_ j hj
    · intro x hx
      exact mem_clusterIdxSet_of_query dist eps minPts points hcs hx
    · intro x hx; cases hx
  · rintro ⟨cB, hreach, hcoreB, hmem⟩
    exact expand_reach_sub dist eps minPts points s hcs V₀ A hr hnot cB hreach hcoreB j hmem

/-- A materialized cluster C matches the core index c when C consists exactly of
the points of the index cluster of c. -/
def ClusterMatches (C : List Pt) (c : ℕ) : Prop :=
  IsCore dist eps minPts points c ∧
    ∀ x, x ∈ C ↔ ∃ j ∈ ClusterIdxSet dist eps minPts points c, ptAt points j = x

/-- Invariant of the outer loop of MapManager._dbscan: visited indices are in
range, every materialized cluster matches some core, every visited core has a
matching materialized cluster, and the visited set is closed under density
reachability between cores. -/
def LoopInv (V : Finset ℕ) (Cl : List (List Pt)) : Prop :=
  (∀ j ∈ V, j < points.length) ∧
  (∀ C ∈ Cl, ∃ c, ClusterMatches dist eps minPts points C c) ∧
  (∀ c, IsCore dist eps minPts points c → c ∈ V →
    ∃ C ∈ Cl, ClusterMatches dist eps minPts points C c) ∧
  (∀ c cB, IsCore dist eps minPts points c → c ∈ V →
    CoreReach dist eps minPts points c cB → IsCore dist eps minPts points cB → cB ∈ V)

theorem dbscanLoop_inv (hsym : ∀ a b, dist a b = dist b a) {V : Finset ℕ} (A : Finset ℕ)
    {Cl : List (List Pt)} (hInv : LoopInv dist eps minPts points V Cl) {i : ℕ}
    (hi : i < points.length) :
    LoopInv dist eps minPts points (dbscanLoop dist eps minPts points (V, A, Cl) i).1
      (dbscanLoop dist eps minPts points (V, A, Cl) i).2.2 ∧
    i ∈ (dbscanLoop dist eps minPts points (V, A, Cl) i).1 ∧
    (∀ j ∈ V, j ∈ (dbscanLoop dist eps minPts points (V, A, Cl) i).1) ∧
    (∀ C ∈ Cl, C ∈ (dbscanLoop dist eps minPts points (V, A, Cl) i).2.2) := by
  obtain ⟨inv1, inv2, inv3, inv4⟩ := hInv
  by_cases hvis : i ∈ V
  · rw [dbscanLoop, if_pos hvis]
    exact ⟨⟨inv1, inv2, inv3, inv4⟩, hvis, fun j hj => hj, fun C hC => hC⟩
  · by_cases hnoise : (regionQuery dist eps points i).length < minPts
    · rw [dbscanLoop, if_neg hvis, if_pos hnoise]
      have hicore : ¬ IsCore dist eps minPts points i := fun h => absurd h.2 (not_le.mpr hnoise)
      refine ⟨⟨?_, inv2, ?_, ?_⟩, Finset.mem_insert_self _ _,
        fun j hj => Finset.mem_insert_of_mem hj, fun C hC => hC⟩
      · intro j hj
        rcases Finset.mem_insert.mp hj with h | h
        · rw [h]; exact hi
        · exact inv1 j h
      · intro c hc hcV
        rcases Finset.mem_insert.mp hcV with h | h
        · exact absurd (h ▸ hc) hicore
        · exact inv3 c hc h
      · intro c cB hc hcV hreach hcB
        rcases Finset.mem_insert.mp hcV with h | h
        · exact absurd (h ▸ hc) hicore
        · exact Finset.mem_insert_of_mem (inv4 c cB hc h hreach hcB)
    · rw [dbscanLoop, if_neg hvis, if_neg hnoise]
      simp only
      have hicore : IsCore dist eps minPts points i := ⟨hi, not_lt.mp hnoise⟩
      have hnot : ∀ cB, IsCore dist eps minPts points cB →
          CoreReach dist eps minPts points i cB → cB ≠ i → cB ∉ insert i V := by
        intro cB hcB hreach hne hmem
        rcases Finset.mem_insert.mp hmem with h | h
        · exact hne h
        · exact hvis (inv4 cB i hcB h
            (coreReach_symm dist eps minPts points hsym hreach) hicore)
      have hEq := expand_cluster_eq dist eps minPts points i hicore V (insert i A)
        (fun j hj => regionQuery_lt dist eps points hj) hnot
      have hVis := expand_visited_iff dist eps minPts points
        (regionQuery dist eps points i) (insert i V) (insert i A) []
        (fun j hj => regionQuery_lt dist eps points hj) (by intro x hx; cases hx)
      set r := expand dist eps minPts points (regionQuery dist eps points i) (insert i V)
        (insert i A) [] (fun j hj => regionQuery_lt dist eps points hj) with hr
      have hmemV1 : ∀ j, j ∈ r.2.1 ↔ (j = i ∨ j ∈ V) ∨ j ∈ ClusterIdxSet dist eps minPts points i := by
        intro j
        rw [hVis j, hEq j]
        constructor
        · rintro (h | h)
          · exact Or.inl (Finset.mem_insert.mp h)
          · exact Or.inr h
        · rintro (h | h)
          · exact Or.inl (Finset.mem_insert.mpr h)
          · exact Or.inr h
      have hnewC : ClusterMatches dist eps minPts points (r.1.map (ptAt points)) i := by
        refine ⟨hicore, ?_⟩
        intro x
        rw [List.mem_map]
        constructor
        · rintro ⟨j, hj, hjx⟩
          exact ⟨j, (hEq j).mp hj, hjx⟩
        · rintro ⟨j, hj, hjx⟩
          exact ⟨j, (hEq j).mpr hj, hjx⟩
      have hreach_of_mem_core : ∀ c, IsCore dist eps minPts points c →
          c ∈ ClusterIdxSet dist eps minPts points i →
          CoreReach dist eps minPts points i c :=
        fun c hc hmem => coreReach_of_mem dist eps minPts points hicore hmem hc
      refine ⟨⟨?_, ?_, ?_, ?_⟩, ?_, ?_, ?_⟩
      · intro j hj
        rcases (hmemV1 j).mp hj with (h | h) | h
        · rw [h]; exact hi
        · exact inv1 j h
        · exact clusterIdxSet_lt dist eps minPts points h
      · intro C hC
        rcases List.mem_append.mp hC with h | h
        · exact inv2 C h
        · rw [List.mem_singleton.mp h]
          exact ⟨i, hnewC⟩
      · intro c hc hcV
        rcases (hmemV1 c).mp hcV with (h | h) | h
        · refine ⟨r.1.map (ptAt points), List.mem_append_right _ (List.mem_singleton.mpr rfl), ?_⟩
          rw [h]; exact hnewC
        · obtain ⟨C, hCmem, hCm⟩ := inv3 c hc h
          exact ⟨C, List.mem_append_left _ hCmem, hCm⟩
        · refine ⟨r.1.map (ptAt points), List.mem_append_right _ (List.mem_singleton.mpr rfl), ?_⟩
          refine ⟨hc, ?_⟩
          have hcongr := clusterIdxSet_congr dist eps minPts points hsym
            (hreach_of_mem_core c hc h)
          rw [← hcongr]
          exact hnewC.2
      · intro c cB hc hcV hreach hcB
        rcases (hmemV1 c).mp hcV with (h | h) | h
        · have hreachI : CoreReach dist eps minPts points i cB := h ▸ hreach
          rcases coreReach_mem_or_eq dist eps minPts points hreachI hcB with h1 | h1
          · rw [(hmemV1 cB)]; exact Or.inl (Or.inl h1)
          · rw [(hmemV1 cB)]; exact Or.inr h1
        · have hBV : cB ∈ V := inv4 c cB hc h hreach hcB
          rw [(hmemV1 cB)]; exact Or.inl (Or.inr hBV)
        · have hreachI : CoreReach dist eps minPts points i cB :=
            Relation.ReflTransGen.trans (hreach_of_mem_core c hc h) hreach
          rcases coreReach_mem_or_eq dist eps minPts points hreachI hcB with h1 | h1
          · rw [(hmemV1 cB)]; exact Or.inl (Or.inl h1)
          · rw [(hmemV1 cB)]; exact Or.inr h1
      · rw [(hmemV1 i)]; exact Or.inl (Or.inl rfl)
      · intro j hj
        rw [(hmemV1 j)]; exact Or.inl (Or.inr hj)
      · intro C hC
        exact List.mem_append_left _ hC

theorem dbscanFold_inv (hsym : ∀ a b, dist a b = dist b a) :
    ∀ (is : List ℕ) (V A : Finset ℕ) (Cl : List (List Pt)),
    (∀ i ∈ is, i < points.length) → LoopInv dist eps minPts points V Cl →
    LoopInv dist eps minPts points
      (is.foldl (dbscanLoop dist eps minPts points) (V, A, Cl)).1
      (is.foldl (dbscanLoop dist eps minPts points) (V, A, Cl)).2.2 ∧
    (∀ i ∈ is, i ∈ (is.foldl (dbscanLoop dist eps minPts points) (V, A, Cl)).1) ∧
    (∀ j ∈ V, j ∈ (is.foldl (dbscanLoop dist eps minPts points) (V, A, Cl)).1) ∧
    (∀ C ∈ Cl, C ∈ (is.foldl (dbscanLoop dist eps minPts points) (V, A, Cl)).2.2) := by
  intro is
  induction is with
  | nil =>
    intro V A Cl _ hInv
    refine ⟨hInv, ?_, fun j hj => hj, fun C hC => hC⟩
    intro i hi; cases hi
  | cons i is ih =>
    intro V A Cl his hInv
    have hi : i < points.length := his i (List.mem_cons_self i is)
    have hstep := dbscanLoop_inv dist eps minPts points hsym A hInv hi
    rw [List.foldl_cons]
    set st1 := dbscanLoop dist eps minPts points (V, A, Cl) i with hst1
    have hst1eta : st1 = (st1.1, st1.2.1, st1.2.2) := rfl
    rw [hst1eta]
    have hrec := ih st1.1 st1.2.1 st1.2.2 (fun x hx => his x (List.mem_cons_of_mem i hx))
      hstep.1
    refine ⟨hrec.1, ?_, ?_, ?_⟩
    · intro x hx
      rcases List.mem_cons.mp hx with h | h
      · rw [h]; exact hrec.2.2.1 i hstep.2.1
      · exact hrec.2.1 x h
    · intro j hj
      exact hrec.2.2.1 j (hstep.2.2.1 j hj)
    · intro C hC
      exact hrec.2.2.2 C (hstep.2.2.2 C hC)

theorem dbscan_characterization (hsym : ∀ a b, dist a b = dist b a) :
    (∀ C ∈ dbscan dist eps minPts points, ∃ c, ClusterMatches dist eps minPts points C c) ∧
    (∀ c, IsCore dist eps minPts points c →
      ∃ C ∈ dbscan dist eps minPts points, ClusterMatches dist eps minPts points C c) := by
  have hInv0 : LoopInv dist eps minPts points ∅ [] := by
    refine ⟨?_, ?_, ?_, ?_⟩
    · intro j hj; cases hj
    · intro C hC; cases hC
    · intro c _ hc; cases hc
    · intro c cB _ hc; cases hc
  have hfold := dbscanFold_inv dist eps minPts points hsym (List.range points.length) ∅ ∅ []
    (fun i hi => List.mem_range.mp hi) hInv0
  constructor
  · intro C hC
    exact hfold.1.2.1 C hC
  · intro c hc
    have hcV : c ∈ ((List.range points.length).foldl (dbscanLoop dist eps minPts points)
        (∅, ∅, [])).1 :=
      hfold.2.1 c (List.mem_range.mpr hc.1)
    exact hfold.1.2.2.1 c hc hcV

/-- Neighborhood count of a coordinate over a point multiset: the value-level
counterpart of the regionQuery length, counting duplicates with multiplicity. -/
def nbrCard (m : Multiset Pt) (x : Pt) : ℕ :=
  Multiset.card (m.filter (fun y => dist x y ≤ eps))

/-- Value-level core point of a point multiset. -/
def IsCoreV (m : Multiset Pt) (x : Pt) : Prop :=
  x ∈ m ∧ minPts ≤ nbrCard dist eps m x

/-- Value-level direct density connection. -/
def CoreAdjV (m : Multiset Pt) (x y : Pt) : Prop :=
  IsCoreV dist eps minPts m x ∧ IsCoreV dist eps minPts m y ∧ dist x y ≤ eps

/-- Value-level density reachability chains. -/
def CoreReachV (m : Multiset Pt) : Pt → Pt → Prop :=
  Relation.ReflTransGen (CoreAdjV dist eps minPts m)

/-- Value-level cluster of a core coordinate: everything of the multiset within
eps of some core reachable from it. -/
def ClusterPtSet (m : Multiset Pt) (x : Pt) : Set Pt :=
  setOf (fun y => ∃ xB, CoreReachV dist eps minPts m x xB ∧ IsCoreV dist eps minPts m xB ∧
    y ∈ m ∧ dist xB y ≤ eps)

theorem countP_range_getD {α : Type} (l : List α) (p : α → Bool) (d : α) :
    (List.range l.length).countP (fun j => p (l.getD j d)) = l.countP p := by
  induction l with
  | nil => simp
  | cons a t ih =>
    rw [List.length_cons, List.range_succ_eq_map, List.countP_cons, List.countP_map,
      List.countP_cons]
    have h1 : ((fun j => p ((a :: t).getD j d)) ∘ Nat.succ) = fun j => p (t.getD j d) := by
      funext j
      simp [List.getD_cons_succ]
    have h2 : (a :: t).getD 0 d = a := rfl
    rw [h1, h2, ih]

theorem regionQuery_length_count (x : Pt) :
    ((List.range points.length).filter (fun j => dist x (ptAt points j) ≤ eps)).length =
      nbrCard dist eps (↑points) x := by
  rw [nbrCard, Multiset.filter_coe, Multiset.coe_card, ← List.countP_eq_length_filter,
    ← List.countP_eq_length_filter]
  exact countP_range_getD points (fun y => decide (dist x y ≤ eps)) (0, 0)

theorem ptAt_mem {i : ℕ} (hi : i < points.length) : ptAt points i ∈ points := by
  rw [ptAt, List.getD_eq_getElem?_getD, List.getElem?_eq_getElem hi]
  exact List.getElem_mem hi

theorem mem_exists_ptAt {x : Pt} (hx : x ∈ points) :
    ∃ i, i < points.length ∧ ptAt points i = x := by
  obtain ⟨⟨i, hi⟩, hget⟩ := List.mem_iff_get.mp hx
  refine ⟨i, hi, ?_⟩
  rw [ptAt, List.getD_eq_getElem?_getD, List.getElem?_eq_getElem hi]
  simpa [List.get_eq_getElem] using hget

theorem isCore_iff_isCoreV {i : ℕ} (hi : i < points.length) :
    IsCore dist eps minPts points i ↔ IsCoreV dist eps minPts (↑points) (ptAt points i) := by
  rw [IsCore, IsCoreV, regionQuery, regionQuery_length_count]
  constructor
  · intro h
    exact ⟨Multiset.mem_coe.mpr (ptAt_mem points hi), h.2⟩
  · intro h
    exact ⟨hi, h.2⟩

theorem coreReach_to_value {i j : ℕ} (h : CoreReach dist eps minPts points i j) :
    CoreReachV dist eps minPts (↑points) (ptAt points i) (ptAt points j) := by
  induction h with
  | refl => exact Relation.ReflTransGen.refl
  | tail hab hadj ih =>
    refine ih.tail ?_
    exact ⟨(isCore_iff_isCoreV dist eps minPts points hadj.1.1).mp hadj.1,
      (isCore_iff_isCoreV dist eps minPts points hadj.2.1.1).mp hadj.2.1, hadj.2.2⟩

theorem coreReachV_lift {i : ℕ} (hc : IsCore dist eps minPts points i) {x : Pt}
    (h : CoreReachV dist eps minPts (↑points) (ptAt points i) x) :
    ∃ j, j < points.length ∧ ptAt points j = x ∧ CoreReach dist eps minPts points i j := by
  induction h with
  | refl => exact ⟨i, hc.1, rfl, Relation.ReflTransGen.refl⟩
  | tail hab hadj ih =>
    rename_i b c
    obtain ⟨jb, hjb, hjbeq, hjreach⟩ := ih
    have hcx : c ∈ points := Multiset.mem_coe.mp hadj.2.1.1
    obtain ⟨jc, hjc, hjceq⟩ := mem_exists_ptAt points hcx
    refine ⟨jc, hjc, hjceq, hjreach.tail ?_⟩
    refine ⟨?_, ?_, ?_⟩
    · exact (isCore_iff_isCoreV dist eps minPts points hjb).mpr (by rw [hjbeq]; exact hadj.1)
    · exact (isCore_iff_isCoreV dist eps minPts points hjc).mpr (by rw [hjceq]; exact hadj.2.1)
    · rw [hjbeq, hjceq]; exact hadj.2.2

theorem clusterIdxSet_image {c : ℕ} (hc : IsCore dist eps minPts points c) (x : Pt) :
    (∃ j ∈ ClusterIdxSet dist eps minPts points c, ptAt points j = x) ↔
      x ∈ ClusterPtSet dist eps minPts (↑points) (ptAt points c) := by
  constructor
  · rintro ⟨j, ⟨cB, hreach, hcoreB, hmem⟩, hjx⟩
    obtain ⟨hjlt, hjdist⟩ := (mem_regionQuery dist eps points).mp hmem
    refine ⟨ptAt points cB, coreReach_to_value dist eps minPts points hreach,
      (isCore_iff_isCoreV dist eps minPts points hcoreB.1).mp hcoreB, ?_, ?_⟩
    · rw [← hjx]
      exact Multiset.mem_coe.mpr (ptAt_mem points hjlt)
    · rw [← hjx]
      exact hjdist
  · rintro ⟨xB, hreachV, hcoreV, hxm, hdist⟩
    obtain ⟨cB, hcBlt, hcBeq, hreach⟩ := coreReachV_lift dist eps minPts points hc hreachV
    obtain ⟨j, hjlt, hjeq⟩ := mem_exists_ptAt points (Multiset.mem_coe.mp hxm)
    refine ⟨j, ⟨cB, hreach,
      (isCore_iff_isCoreV dist eps minPts points hcBlt).mpr (by rw [hcBeq]; exact hcoreV), ?_⟩,
      hjeq⟩
    refine (mem_regionQuery dist eps points).mpr ⟨hjlt, ?_⟩
    rw [hcBeq, hjeq]
    exact hdist

/-- The family of member sets of the clusters produced by a DBSCAN run, as a
finset of finsets of points: the object the stability property compares across
permuted inputs. -/
def clusterMemberSets : Finset (Finset Pt) :=
  ((dbscan dist eps minPts points).map List.toFinset).toFinset

/-- Input points that end up in some cluster of the run. -/
def clusteredPoints : Finset Pt :=
  (clusterMemberSets dist eps minPts points).sup id

/-- Noise of a run: input points that belong to no cluster. -/
def noisePoints : Finset Pt :=
  points.toFinset \ clusteredPoints dist eps minPts points

theorem mem_clusterMemberSets_iff (hsym : ∀ a b, dist a b = dist b a) (S : Finset Pt) :
    S ∈ clusterMemberSets dist eps minPts points ↔
      ∃ x, IsCoreV dist eps minPts (↑points) x ∧
        (S : Set Pt) = ClusterPtSet dist eps minPts (↑points) x := by
  rw [clusterMemberSets, List.mem_toFinset, List.mem_map]
  constructor
  · rintro ⟨C, hC, hCS⟩
    obtain ⟨c, hcore, hmem⟩ := (dbscan_characterization dist eps minPts points hsym).1 C hC
    refine ⟨ptAt points c, (isCore_iff_isCoreV dist eps minPts points hcore.1).mp hcore, ?_⟩
    rw [← hCS]
    ext y
    rw [List.coe_toFinset, Set.mem_setOf_eq]
    rw [show y ∈ C ↔ ∃ j ∈ ClusterIdxSet dist eps minPts points c, ptAt points j = y from
      hmem y]
    exact clusterIdxSet_image dist eps minPts points hcore y
  · rintro ⟨x, hxcore, hS⟩
    obtain ⟨c, hclt, hceq⟩ := mem_exists_ptAt points (Multiset.mem_coe.mp hxcore.1)
    have hcore : IsCore dist eps minPts points c :=
      (isCore_iff_isCoreV dist eps minPts points hclt).mpr (by rw [hceq]; exact hxcore)
    obtain ⟨C, hCmem, hcore2, hmem⟩ :=
      (dbscan_characterization dist eps minPts points hsym).2 c hcore
    refine ⟨C, hCmem, ?_⟩
    apply Finset.coe_injective
    rw [hS]
    ext y
    rw [List.coe_toFinset, Set.mem_setOf_eq]
    rw [show y ∈ C ↔ ∃ j ∈ ClusterIdxSet dist eps minPts points c, ptAt points j = y from
      hmem y]
    rw [clusterIdxSet_image dist eps minPts points hcore y, hceq]

end Dbscan

/-- Claim C3: DBSCAN stability. For every finite point list, every pair of
parameters and every symmetric host distance, running MapManager._dbscan on the
list and on any permutation (shuffle) of it yields the same family of cluster
member sets and the same noise set: cluster order and internal order may differ,
membership may not. -/
theorem dbscan_shuffle_stable (dist : Pt → Pt → ℚ) (eps : ℚ) (minPts : ℕ)
    (hsym : ∀ a b, dist a b = dist b a) (ps qs : List Pt) (hperm : ps.Perm qs) :
    clusterMemberSets dist eps minPts ps = clusterMemberSets dist eps minPts qs ∧
    noisePoints dist eps minPts ps = noisePoints dist eps minPts qs := by
  have hm : (↑ps : Multiset Pt) = ↑qs := Multiset.coe_eq_coe.mpr hperm
  have hsets : clusterMemberSets dist eps minPts ps = clusterMemberSets dist eps minPts qs := by
    ext S
    rw [mem_clusterMemberSets_iff dist eps minPts ps hsym S,
      mem_clusterMemberSets_iff dist eps minPts qs hsym S, hm]
  refine ⟨hsets, ?_⟩
  rw [noisePoints, noisePoints, clusteredPoints, clusteredPoints, hsets,
    List.toFinset_eq_of_perm ps qs hperm]

/-- A concrete symmetric distance (squared Euclidean) standing in for the host
Leaflet map.distance in the DBSCAN witnesses. -/
def distW (a b : Pt) : ℚ :=
  (a.1 - b.1) * (a.1 - b.1) + (a.2 - b.2) * (a.2 - b.2)

theorem distW_symm (a b : Pt) : distW a b = distW b a := by
  unfold distW
  ring

theorem distW_self (p : Pt) : distW p p = 0 := by
  unfold distW
  ring

/-- Witness for dbscan_shuffle_stable on a concrete two-point list and its
swap. -/
theorem dbscan_shuffle_stable_witness :
    (∀ a b, distW a b = distW b a) ∧
    ([((0 : ℚ), (0 : ℚ)), ((0 : ℚ), (1 : ℚ))] : List Pt).Perm
      [((0 : ℚ), (1 : ℚ)), ((0 : ℚ), (0 : ℚ))] ∧
    clusterMemberSets distW 2 1 [((0 : ℚ), (0 : ℚ)), ((0 : ℚ), (1 : ℚ))] =
      clusterMemberSets distW 2 1 [((0 : ℚ), (1 : ℚ)), ((0 : ℚ), (0 : ℚ))] ∧
    noisePoints distW 2 1 [((0 : ℚ), (0 : ℚ)), ((0 : ℚ), (1 : ℚ))] =
      noisePoints distW 2 1 [((0 : ℚ), (1 : ℚ)), ((0 : ℚ), (0 : ℚ))] := by
  have hperm : ([((0 : ℚ), (0 : ℚ)), ((0 : ℚ), (1 : ℚ))] : List Pt).Perm
      [((0 : ℚ), (1 : ℚ)), ((0 : ℚ), (0 : ℚ))] :=
    List.Perm.swap ((0 : ℚ), (1 : ℚ)) ((0 : ℚ), (0 : ℚ)) []
  have h := dbscan_shuffle_stable distW 2 1 distW_symm
    [((0 : ℚ), (0 : ℚ)), ((0 : ℚ), (1 : ℚ))] [((0 : ℚ), (1 : ℚ)), ((0 : ℚ), (0 : ℚ))] hperm
  exact ⟨distW_symm, hperm, h.1, h.2⟩

section DbscanNoise

variable (dist : Pt → Pt → ℚ) (eps : ℚ) (minPts : ℕ) (points : List Pt)

theorem self_mem_regionQuery (hrefl : ∀ p, dist p p = 0) (heps : 0 ≤ eps) {i : ℕ}
    (hi : i < points.length) : i ∈ regionQuery dist eps points i :=
  (mem_regionQuery dist eps points).mpr ⟨hi, by rw [hrefl]; exact heps⟩

/-- Invariant for the no-noise argument: every visited index either landed in a
materialized cluster or had a neighborhood below minPts when it was seeded. -/
def NoNoiseInv (V : Finset ℕ) (Cl : List (List Pt)) : Prop :=
  ∀ j ∈ V, (∃ C ∈ Cl, ptAt points j ∈ C) ∨ (regionQuery dist eps points j).length < minPts

theorem dbscanLoop_noNoise (hrefl : ∀ p, dist p p = 0) (heps : 0 ≤ eps) (A : Finset ℕ)
    {V : Finset ℕ} {Cl : List (List Pt)} (hInv : NoNoiseInv dist eps minPts points V Cl)
    {i : ℕ} (hi : i < points.length) :
    NoNoiseInv dist eps minPts points (dbscanLoop dist eps minPts points (V, A, Cl) i).1
      (dbscanLoop dist eps minPts points (V, A, Cl) i).2.2 ∧
    i ∈ (dbscanLoop dist eps minPts points (V, A, Cl) i).1 ∧
    (∀ j ∈ V, j ∈ (dbscanLoop dist eps minPts points (V, A, Cl) i).1) := by
  by_cases hvis : i ∈ V
  · rw [dbscanLoop, if_pos hvis]
    exact ⟨hInv, hvis, fun j hj => hj⟩
  · by_cases hnoise : (regionQuery dist eps points i).length < minPts
    · rw [dbscanLoop, if_neg hvis, if_pos hnoise]
      refine ⟨?_, Finset.mem_insert_self _ _, fun j hj => Finset.mem_insert_of_mem hj⟩
      intro j hj
      rcases Finset.mem_insert.mp hj with h | h
      · exact Or.inr (h ▸ hnoise)
      · exact hInv j h
    · rw [dbscanLoop, if_neg hvis, if_neg hnoise]
      simp only
      have hVis := expand_visited_iff dist eps minPts points
        (regionQuery dist eps points i) (insert i V) (insert i A) []
        (fun j hj => regionQuery_lt dist eps points hj) (by intro x hx; cases hx)
      set r := expand dist eps minPts points (regionQuery dist eps points i) (insert i V)
        (insert i A) [] (fun j hj => regionQuery_lt dist eps points hj) with hr
      have hself : i ∈ r.1 :=
        expand_mem_queue dist eps minPts points _ _ _ _
          (fun j hj => regionQuery_lt dist eps points hj) i
          (self_mem_regionQuery dist eps points hrefl heps hi)
      refine ⟨?_, ?_, ?_⟩
      · intro j hj
        rcases (hVis j).mp hj with h | h
        · rcases Finset.mem_insert.mp h with h1 | h1
          · refine Or.inl ⟨r.1.map (ptAt points),
              List.mem_append_right _ (List.mem_singleton.mpr rfl), ?_⟩
            exact List.mem_map.mpr ⟨j, h1 ▸ hself, rfl⟩
          · rcases hInv j h1 with ⟨C, hC, hjC⟩ | h2
            · exact Or.inl ⟨C, List.mem_append_left _ hC, hjC⟩
            · exact Or.inr h2
        · refine Or.inl ⟨r.1.map (ptAt points),
            List.mem_append_right _ (List.mem_singleton.mpr rfl), ?_⟩
          exact List.mem_map.mpr ⟨j, h, rfl⟩
      · rw [hVis i]
        exact Or.inl (Finset.mem_insert_self _ _)
      · intro j hj
        rw [hVis j]
        exact Or.inl (Finset.mem_insert_of_mem hj)

theorem dbscanFold_noNoise (hrefl : ∀ p, dist p p = 0) (heps : 0 ≤ eps) :
    ∀ (is : List ℕ) (V A : Finset ℕ) (Cl : List (List Pt)),
    (∀ i ∈ is, i < points.length) → NoNoiseInv dist eps minPts points V Cl →
    NoNoiseInv dist eps minPts points
      (is.foldl (dbscanLoop dist eps minPts points) (V, A, Cl)).1
      (is.foldl (dbscanLoop dist eps minPts points) (V, A, Cl)).2.2 ∧
    (∀ i ∈ is, i ∈ (is.foldl (dbscanLoop dist eps minPts points) (V, A, Cl)).1) ∧
    (∀ j ∈ V, j ∈ (is.foldl (dbscanLoop dist eps minPts points) (V, A, Cl)).1) := by
  intro is
  induction is with
  | nil =>
    intro V A Cl _ hInv
    refine ⟨hInv, ?_, fun j hj => hj⟩
    intro i hi; cases hi
  | cons i is ih =>
    intro V A Cl his hInv
    have hi : i < points.length := his i (List.mem_cons_self i is)
    have hstep := dbscanLoop_noNoise dist eps minPts points hrefl heps A hInv hi
    rw [List.foldl_cons]
    set st1 := dbscanLoop dist eps minPts points (V, A, Cl) i with hst1
    have hst1eta : st1 = (st1.1, st1.2.1, st1.2.2) := rfl
    rw [hst1eta]
    have hrec := ih st1.1 st1.2.1 st1.2.2 (fun x hx => his x (List.mem_cons_of_mem i hx))
      hstep.1
    refine ⟨hrec.1, ?_, ?_⟩
    · intro x hx
      rcases List.mem_cons.mp hx with h | h
      · rw [h]; exact hrec.2.2 i hstep.2.1
      · exact hrec.2.1 x h
    · intro j hj
      exact hrec.2.2 j (hstep.2.2 j hj)

end DbscanNoise

/-- Claim C10: in MapManager._dbscan a point's eps-neighborhood always contains
the point itself, since its self-distance 0 is at most eps for every
nonnegative eps, so every neighborhood count is at least 1 and, with minPts = 1,
no input point is ever classified as noise: every point ends up in some
cluster. -/
theorem dbscan_self_neighborhood_no_noise (dist : Pt → Pt → ℚ) (eps : ℚ)
    (hrefl : ∀ p, dist p p = 0) (heps : 0 ≤ eps) (ps : List Pt) :
    (∀ i, i < ps.length → 1 ≤ (regionQuery dist eps ps i).length) ∧
    (∀ p ∈ ps, ∃ C ∈ dbscan dist eps 1 ps, p ∈ C) := by
  have hone : ∀ i, i < ps.length → 1 ≤ (regionQuery dist eps ps i).length := by
    intro i hi
    exact List.length_pos_of_mem (self_mem_regionQuery dist eps ps hrefl heps hi)
  refine ⟨hone, ?_⟩
  intro p hp
  obtain ⟨i, hi, hieq⟩ := mem_exists_ptAt ps hp
  have hInv0 : NoNoiseInv dist eps 1 ps ∅ [] := by
    intro j hj; cases hj
  have hfold := dbscanFold_noNoise dist eps 1 ps hrefl heps (List.range ps.length) ∅ ∅ []
    (fun x hx => List.mem_range.mp hx) hInv0
  have hiV := hfold.2.1 i (List.mem_range.mpr hi)
  rcases hfold.1 i hiV with ⟨C, hC, hpc⟩ | h2
  · exact ⟨C, hC, by rw [← hieq]; exact hpc⟩
  · exact absurd (hone i hi) (not_le.mpr h2)

/-- Witness for dbscan_self_neighborhood_no_noise at a concrete one-point
list. -/
theorem dbscan_self_neighborhood_no_noise_witness :
    (∀ p : Pt, distW p p = 0) ∧ ((0 : ℚ) ≤ 2) ∧
    (∀ i, i < ([((0 : ℚ), (0 : ℚ))] : List Pt).length →
      1 ≤ (regionQuery distW 2 [((0 : ℚ), (0 : ℚ))] i).length) ∧
    (∀ p ∈ ([((0 : ℚ), (0 : ℚ))] : List Pt),
      ∃ C ∈ dbscan distW 2 1 [((0 : ℚ), (0 : ℚ))], p ∈ C) := by
  have h := dbscan_self_neighborhood_no_noise distW 2 distW_self (by norm_num)
    [((0 : ℚ), (0 : ℚ))]
  exact ⟨distW_self, by norm_num, h.1, h.2⟩

end TetOfferMap
